import Mathlib

/-!
# Row-parallel contrast transform: scheduler and progress monitor

A shallow embedding of `Lab3.cpp` / `Lab4-library.cpp` (and the shared
`decreaseContrast` of `Lab2.cpp`):

* the pixel buffer of an `SDL_Surface` is a list of bytes (`Nat`, each below 256),
  addressed by `y * pitch + x * BytesPerPixel + c`;
* the worker pool, the progress monitor and the joining driver are threads of one
  step function `step`, which runs the next atomic action of the thread chosen by
  the scheduler; a run is a list of such choices (`run`);
* `claimed`, `transformed`, `released` and `rendered` are history variables: they
  record what the threads did and are never read by the program;
* the static partition of METHOD 3 of `Lab2.cpp` is the list of rows of each thread
  (`method3Rows`, `method3Threads`).
-/

namespace OsLabs

/-! ## Pixel buffer and the row transform -/

/-- The fields of `SDL_Surface` that the labs read: `w`, `h`, `pitch`,
`format->BytesPerPixel` and the byte region `pixels`. -/
structure SDL_Surface where
  w : Nat
  h : Nat
  pitch : Nat
  BytesPerPixel : Nat
  pixels : List Nat
  deriving DecidableEq, Repr

/-- Conversion of an `int` to `Uint8` on assignment: reduction modulo 256. -/
def storeU8 (n : Int) : Nat := (n % 256).toNat

/-- The right-hand side of `pixel[c] = max(0, pixel[c] - contrastFactor)`: both
operands are promoted to `int`, the difference and `max` are taken in `int`, and
the result is converted back to `Uint8`. -/
def contrastByte (v contrastFactor : Nat) : Nat :=
  storeU8 (max 0 ((v : Int) - (contrastFactor : Int)))

/-- The innermost loop body: `pixel[c] = max(0, pixel[c] - contrastFactor)` with
`pixel` at byte offset `pixel` of the region. A store outside the region is not
modelled (`List.set` leaves the list unchanged there). -/
def channelBody (contrastFactor pixel : Nat) (px : List Nat) (c : Nat) : List Nat :=
  px.set (pixel + c) (contrastByte (px.getD (pixel + c) 0) contrastFactor)

/-- The loop `for (int c = 0; c < BytesPerPixel; ++c)` of one pixel. -/
def channelLoop (BytesPerPixel contrastFactor pixel : Nat) (px : List Nat) : List Nat :=
  (List.range BytesPerPixel).foldl (channelBody contrastFactor pixel) px

/-- The loop `for (int x = 0; x < image->w; ++x)` of one row `y`; the pixel
pointer is `pixels + y * pitch + x * BytesPerPixel`. -/
def pixelLoop (w pitch BytesPerPixel contrastFactor y : Nat) (px : List Nat) : List Nat :=
  (List.range w).foldl
    (fun px x => channelLoop BytesPerPixel contrastFactor (y * pitch + x * BytesPerPixel) px) px

/-- The function `decreaseContrast(image, startY, endY, contrastFactor)` of
`Lab2.cpp` and `Lab3.cpp`, named `increaseContrast` in `Lab4-library.cpp`: the loop
`for (int y = startY; y < endY; ++y)` over the rows. Row numbers and byte offsets
are natural numbers: the `int` products do not overflow for a buffer that exists. -/
def decreaseContrast (image : SDL_Surface) (startY endY contrastFactor : Nat) : SDL_Surface :=
  { image with
    pixels := (List.range' startY (endY - startY)).foldl
      (fun px y => pixelLoop image.w image.pitch image.BytesPerPixel contrastFactor y px)
      image.pixels }

/-- Byte offset `i` lies in the pixel data of row `y`: the bytes
`y * pitch + k` with `k < w * BytesPerPixel`. -/
def inRow (w pitch bpp y i : Nat) : Prop :=
  y * pitch ≤ i ∧ i < y * pitch + w * bpp

instance (w pitch bpp y i : Nat) : Decidable (inRow w pitch bpp y i) := by
  unfold inRow
  exact inferInstance

/-- Byte offset `i` lies in the pixel data of one of the rows `startY .. endY - 1`. -/
def inRows (w pitch bpp startY endY i : Nat) : Prop :=
  ∃ y, y < endY ∧ (startY ≤ y ∧ inRow w pitch bpp y i)

instance (w pitch bpp startY endY i : Nat) : Decidable (inRows w pitch bpp startY endY i) := by
  unfold inRows
  exact inferInstance

/-! ## The scheduler of `Lab3.cpp` / `Lab4-library.cpp` -/

/-- The compile-time constants `THREADS`, `MAX_WORKERS` and `CONTRAST_FACTOR`. -/
structure Config where
  THREADS : Nat
  MAX_WORKERS : Int
  CONTRAST_FACTOR : Nat
  deriving DecidableEq, Repr

/-- The constants of `Lab3.cpp`: `THREADS 1`, `MAX_WORKERS 12`, `CONTRAST_FACTOR 128`. -/
def lab3Config : Config := { THREADS := 1, MAX_WORKERS := 12, CONTRAST_FACTOR := 128 }

/-- The constants of `Lab4-library.cpp`: `THREADS 12`, `MAX_WORKERS 12`,
`CONTRAST_FACTOR 128`. -/
def lab4Config : Config := { THREADS := 12, MAX_WORKERS := 12, CONTRAST_FACTOR := 128 }

/-- What the locked section at the top of the worker loop leaves behind: the locals
`empty` and `row`, and the shared `rowsToProcess` and `currentlyWorking`. -/
structure Claim where
  empty : Bool
  row : Int
  rowsToProcess : List Int
  currentlyWorking : Int
  deriving DecidableEq, Repr

/-- The locked section of the worker loop:
`bool empty = rowsToProcess.empty(); int row = -1;`
`if (!empty && currentlyWorking < MAX_WORKERS) { currentlyWorking++; row = rowsToProcess.front(); rowsToProcess.pop(); }`.
The counter stays below `MAX_WORKERS`, so `currentlyWorking++` is taken in `Int`. -/
def tryClaim (MAX_WORKERS : Int) (rowsToProcess : List Int) (currentlyWorking : Int) : Claim :=
  match rowsToProcess with
  | [] => { empty := true, row := -1, rowsToProcess := [], currentlyWorking := currentlyWorking }
  | front :: rest =>
    if currentlyWorking < MAX_WORKERS then
      { empty := false, row := front, rowsToProcess := rest,
        currentlyWorking := currentlyWorking + 1 }
    else
      { empty := false, row := -1, rowsToProcess := front :: rest,
        currentlyWorking := currentlyWorking }

/-- The three ways the worker continues after the locked section. -/
inductive Outcome where
  | exhausted
  | notNow
  | claimed (row : Int)
  deriving DecidableEq, Repr

/-- The tests after the unlock: `if (empty) break; if (row == -1) continue;`, and
otherwise the row is transformed. -/
def Claim.outcome (c : Claim) : Outcome :=
  if c.empty then Outcome.exhausted
  else if c.row = -1 then Outcome.notNow
  else Outcome.claimed c.row

/-- Where a worker thread stands: before the locked claim, before the call of
`decreaseContrast(image, row, row + 1, CONTRAST_FACTOR)`, before the locked
`currentlyWorking--`, or after `break`. -/
inductive WorkerPc where
  | locking
  | transforming (row : Int)
  | releasing (row : Int)
  | exited
  deriving DecidableEq, Repr

/-- Where the `progressBar` thread stands: before the locked read of
`rowsToProcess.size()`, before the `printf` of the percentage for `left`, before
`done.load()`, or after the clearing output and `break`. -/
inductive MonitorPc where
  | sampling
  | rendering (left : Nat)
  | checking
  | exited
  deriving DecidableEq, Repr

/-- Where the main thread stands: in the loop of `thread.join()` over the workers,
before `done.store(true)`, in `progressBar.join()`, or past it. -/
inductive DriverPc where
  | joiningWorkers
  | storingDone
  | joiningMonitor
  | finished
  deriving DecidableEq, Repr

/-- The shared memory and the program counters of all threads, with the history
variables `claimed`, `transformed`, `released` (rows, in the order of the events)
and `rendered` (the values of `left` printed so far). -/
structure Sched where
  image : SDL_Surface
  rowsToProcess : List Int
  currentlyWorking : Int
  done : Bool
  workers : List WorkerPc
  monitor : MonitorPc
  driver : DriverPc
  claimed : List Int
  transformed : List Int
  released : List Int
  rendered : List Nat
  deriving DecidableEq, Repr

/-- The state after the seeding loop `for (i = 0; i < image->h; i++) rowsToProcess.push(i)`
and `int currentlyWorking = 0`, with all threads created and none run yet.
`std::atomic_bool done;` has no initialiser, so its first value `done0` is an input. -/
def init (cfg : Config) (image : SDL_Surface) (done0 : Bool) : Sched :=
  { image := image
    rowsToProcess := (List.range image.h).map Int.ofNat
    currentlyWorking := 0
    done := done0
    workers := List.replicate cfg.THREADS WorkerPc.locking
    monitor := MonitorPc.sampling
    driver := DriverPc.joiningWorkers
    claimed := []
    transformed := []
    released := []
    rendered := [] }

/-- One atomic action of worker `i`: the locked claim with the tests that follow
it, the transform of the claimed row, or the locked release. The transform of a
row is one action; a negative `row` never reaches it. -/
def workerStep (cfg : Config) (s : Sched) (i : Nat) : Sched :=
  match s.workers[i]? with
  | none => s
  | some WorkerPc.locking =>
    let c := tryClaim cfg.MAX_WORKERS s.rowsToProcess s.currentlyWorking
    match c.outcome with
    | Outcome.exhausted =>
      { s with rowsToProcess := c.rowsToProcess, currentlyWorking := c.currentlyWorking,
               workers := s.workers.set i WorkerPc.exited }
    | Outcome.notNow =>
      { s with rowsToProcess := c.rowsToProcess, currentlyWorking := c.currentlyWorking }
    | Outcome.claimed row =>
      { s with rowsToProcess := c.rowsToProcess, currentlyWorking := c.currentlyWorking,
               workers := s.workers.set i (WorkerPc.transforming row),
               claimed := s.claimed ++ [row] }
  | some (WorkerPc.transforming row) =>
    { s with image := decreaseContrast s.image row.toNat (row.toNat + 1)
                        (cfg.CONTRAST_FACTOR % 256),
             workers := s.workers.set i (WorkerPc.releasing row),
             transformed := s.transformed ++ [row] }
  | some (WorkerPc.releasing row) =>
    { s with currentlyWorking := s.currentlyWorking - 1,
             workers := s.workers.set i WorkerPc.locking,
             released := s.released ++ [row] }
  | some WorkerPc.exited => s

/-- One atomic action of the `progressBar` thread: `int left = rowsToProcess.size()`
under the lock; the `printf` of the percentage; `if (done.load())` with the
clearing output and `break`, or else the sleep and the next iteration. -/
def monitorStep (s : Sched) : Sched :=
  match s.monitor with
  | MonitorPc.sampling => { s with monitor := MonitorPc.rendering s.rowsToProcess.length }
  | MonitorPc.rendering left =>
    { s with rendered := s.rendered ++ [left], monitor := MonitorPc.checking }
  | MonitorPc.checking =>
    if s.done then { s with monitor := MonitorPc.exited }
    else { s with monitor := MonitorPc.sampling }
  | MonitorPc.exited => s

/-- All worker threads have left their loop. -/
def allExited (ws : List WorkerPc) : Bool :=
  ws.all (fun w => decide (w = WorkerPc.exited))

/-- One action of the main thread: the joins block (the state is unchanged) until
the joined threads have exited; `done.store(true)` comes between them. -/
def driverStep (s : Sched) : Sched :=
  match s.driver with
  | DriverPc.joiningWorkers =>
    if allExited s.workers then { s with driver := DriverPc.storingDone } else s
  | DriverPc.storingDone => { s with done := true, driver := DriverPc.joiningMonitor }
  | DriverPc.joiningMonitor =>
    if s.monitor = MonitorPc.exited then { s with driver := DriverPc.finished } else s
  | DriverPc.finished => s

/-- The thread the scheduler runs next. -/
inductive Actor where
  | worker (i : Nat)
  | monitor
  | driver
  deriving DecidableEq, Repr

/-- One step of the whole program: the next atomic action of the chosen thread. -/
def step (cfg : Config) (s : Sched) (a : Actor) : Sched :=
  match a with
  | Actor.worker i => workerStep cfg s i
  | Actor.monitor => monitorStep s
  | Actor.driver => driverStep s

/-- The state after the interleaving `schedule`, started from `s`. -/
def run (cfg : Config) (schedule : List Actor) (s : Sched) : Sched :=
  schedule.foldl (step cfg) s

/-- The value printed by `printf("%.2f%%", 100 * (1 - (double)left / image->h))`,
taken over the rationals; it stands for the `double` value when `h > 0` (for `h = 0`
the `double` quotient is not a number). -/
def percent (left h : Nat) : ℚ := 100 * (1 - (left : ℚ) / (h : ℚ))

/-- The sequential reference of the specification: the row transform applied once
to each of the rows `0 .. h - 1`, one after the other, as
`decreaseContrast(image, row, row + 1, CONTRAST_FACTOR)` for each. -/
def sequential (cfg : Config) (image : SDL_Surface) : SDL_Surface :=
  (List.range image.h).foldl
    (fun im row => decreaseContrast im row (row + 1) (cfg.CONTRAST_FACTOR % 256)) image

/-! ## Invariants of the scheduler -/

/-- The rows held by workers that have claimed a row and not yet transformed it. -/
def holding (ws : List WorkerPc) : List Int :=
  ws.filterMap (fun w => match w with
    | WorkerPc.transforming row => some row
    | _ => none)

/-- The rows held by workers that have transformed their row and not yet released it. -/
def finishing (ws : List WorkerPc) : List Int :=
  ws.filterMap (fun w => match w with
    | WorkerPc.releasing row => some row
    | _ => none)

/-- The `left` value the monitor has read and not yet printed, if any. -/
def pending (m : MonitorPc) : List Nat :=
  match m with
  | MonitorPc.rendering left => [left]
  | _ => []

/-- Queue invariant for an image of height `h`: the claims so far are the rows
`0 .. k - 1` in this order and the queue holds the rows `k .. h - 1` in this order. -/
def InvQ (h : Nat) (s : Sched) : Prop :=
  s.claimed.length ≤ h ∧
  s.claimed = (List.range s.claimed.length).map Int.ofNat ∧
  s.rowsToProcess = (List.range' s.claimed.length (h - s.claimed.length)).map Int.ofNat

/-- Bookkeeping invariant: every claimed row is transformed or held for transform,
every transformed row is released or held for release, and `currentlyWorking`
counts the held rows and stays within `MAX_WORKERS`. -/
def InvW (cfg : Config) (s : Sched) : Prop :=
  s.workers.length = cfg.THREADS ∧
  (∀ r, s.claimed.count r = s.transformed.count r + (holding s.workers).count r) ∧
  (∀ r, s.transformed.count r = s.released.count r + (finishing s.workers).count r) ∧
  s.currentlyWorking = ((holding s.workers).length + (finishing s.workers).length : Nat) ∧
  s.currentlyWorking ≤ cfg.MAX_WORKERS

/-- Once a worker has left its loop the queue is empty, and the main thread gets
past the joins only when all workers have left. -/
def InvD (s : Sched) : Prop :=
  (WorkerPc.exited ∈ s.workers → s.rowsToProcess = []) ∧
  (s.driver ≠ DriverPc.joiningWorkers → allExited s.workers = true)

/-- The image is the initial image with the rows of `transformed` transformed in
the order of that list. -/
def InvI (cfg : Config) (image : SDL_Surface) (s : Sched) : Prop :=
  s.image = s.transformed.foldl
    (fun im row => decreaseContrast im row.toNat (row.toNat + 1) (cfg.CONTRAST_FACTOR % 256))
    image

/-- The values of `left` read so far, in the order read, never increase, are at
most `h`, and are at least the present queue length. -/
def InvM (h : Nat) (s : Sched) : Prop :=
  s.rowsToProcess.length ≤ h ∧
  (∀ x ∈ s.rendered ++ pending s.monitor, x ≤ h) ∧
  List.Pairwise (fun a b => b ≤ a) (s.rendered ++ pending s.monitor ++ [s.rowsToProcess.length])

/-- All invariants of a run on `image` together. -/
def Inv (cfg : Config) (image : SDL_Surface) (s : Sched) : Prop :=
  InvQ image.h s ∧ InvW cfg s ∧ InvD s ∧ InvI cfg image s ∧ InvM image.h s

/-! ## Example inputs -/

/-- A 2 x 2 surface of one byte per pixel with one byte of padding per row. -/
def surface2x2 : SDL_Surface :=
  { w := 2, h := 2, pitch := 3, BytesPerPixel := 1, pixels := [0, 128, 7, 255, 100, 9] }

/-- A pool of three threads with at most two rows in flight. -/
def pool3cap2 : Config := { THREADS := 3, MAX_WORKERS := 2, CONTRAST_FACTOR := 128 }

/-- An interleaving of `pool3cap2` on `surface2x2` that runs both rows to the end:
workers 0 and 1 claim rows 0 and 1, worker 2 polls, the rows are transformed and
released, and the three workers find the queue empty. -/
def schedule2x2 : List Actor :=
  [Actor.worker 0, Actor.monitor, Actor.worker 1, Actor.worker 2, Actor.worker 1,
   Actor.worker 0, Actor.monitor, Actor.worker 0, Actor.worker 1, Actor.worker 2,
   Actor.worker 0, Actor.worker 1, Actor.driver]

/-- A 1 x 10 surface of one byte per pixel, rows two bytes apart. -/
def surface1x10 : SDL_Surface :=
  { w := 1, h := 10, pitch := 2, BytesPerPixel := 1,
    pixels := [200, 0, 3, 0, 128, 0, 129, 0, 255, 0, 0, 0, 77, 0, 130, 0, 1, 0, 250, 0] }

/-- A pool of four threads with at most two rows in flight. -/
def pool4cap2 : Config := { THREADS := 4, MAX_WORKERS := 2, CONTRAST_FACTOR := 128 }

/-- The actions of worker `i` on one row: claim, transform, release. -/
def oneRow (i : Nat) : List Actor := [Actor.worker i, Actor.worker i, Actor.worker i]

/-- An interleaving of `pool4cap2` on `surface1x10` that runs to the end: workers 0
and 1 hold two rows while workers 2 and 3 poll at the cap, the ten rows are taken
in turn by the four workers, and each worker finds the queue empty. -/
def schedule1x10 : List Actor :=
  [Actor.worker 0, Actor.worker 1, Actor.worker 2, Actor.worker 3, Actor.monitor,
   Actor.worker 1, Actor.worker 0, Actor.worker 1, Actor.worker 0] ++
  oneRow 2 ++ oneRow 3 ++ oneRow 0 ++ oneRow 1 ++ [Actor.monitor, Actor.monitor] ++
  oneRow 2 ++ oneRow 3 ++ oneRow 0 ++ oneRow 1 ++
  [Actor.worker 0, Actor.worker 1, Actor.worker 2, Actor.worker 3, Actor.driver]

/-- A 2 x 5 surface of two bytes per pixel with one byte of padding per row. -/
def surface2x5 : SDL_Surface :=
  { w := 2, h := 5, pitch := 5, BytesPerPixel := 2,
    pixels := [0, 127, 128, 129, 11, 255, 254, 200, 130, 12, 1, 2, 3, 4, 13,
               128, 128, 128, 128, 14, 250, 140, 30, 220, 15] }

/-- A pool of five threads with at most one row in flight. -/
def pool5cap1 : Config := { THREADS := 5, MAX_WORKERS := 1, CONTRAST_FACTOR := 128 }

/-- The single worker of `lab3Config` takes the five rows one after the other and
then finds the queue empty. -/
def schedulePool1 : List Actor :=
  oneRow 0 ++ oneRow 0 ++ oneRow 0 ++ oneRow 0 ++ oneRow 0 ++ [Actor.worker 0]

/-- An interleaving of `pool5cap1` on five rows: while one worker holds a row the
next one polls at the cap; the rows go to workers 4, 3, 2, 1, 0 and then every
worker finds the queue empty. -/
def schedulePool5 : List Actor :=
  [Actor.worker 4, Actor.worker 3, Actor.worker 4, Actor.worker 4] ++
  [Actor.worker 3, Actor.worker 2, Actor.worker 3, Actor.monitor, Actor.worker 3] ++
  [Actor.worker 2, Actor.worker 1, Actor.worker 2, Actor.worker 2] ++
  [Actor.worker 1, Actor.worker 0, Actor.worker 1, Actor.worker 1] ++
  oneRow 0 ++
  [Actor.worker 0, Actor.worker 1, Actor.worker 2, Actor.worker 3, Actor.worker 4]

/-- What holds from a state on in which the queue is empty and the monitor is about
to read the queue length, `base` being what was printed up to then: the queue stays
empty and the monitor prints only `left = 0`, at least once before it gets to
`done.load()`. -/
def SampledEmpty (base : List Nat) (s : Sched) : Prop :=
  s.rowsToProcess = [] ∧
  ∃ n, s.rendered = base ++ List.replicate n 0 ∧
    (s.monitor = MonitorPc.sampling ∨ s.monitor = MonitorPc.rendering 0 ∨
      ((s.monitor = MonitorPc.checking ∨ s.monitor = MonitorPc.exited) ∧ 0 < n))

/-- A 1 x 1 surface of one byte per pixel. -/
def surface1x1 : SDL_Surface :=
  { w := 1, h := 1, pitch := 1, BytesPerPixel := 1, pixels := [200] }

/-- An interleaving of `lab3Config` on one row: the monitor reads `left = 1`; the
worker claims, transforms and releases row 0 and finds the queue empty; the main
thread joins it and stores `done`; only then the monitor prints the percentage of
`left = 1`, loads `done`, clears the line and exits. -/
def scheduleStaleSample : List Actor :=
  [Actor.monitor, Actor.worker 0, Actor.worker 0, Actor.worker 0, Actor.worker 0,
   Actor.driver, Actor.driver, Actor.monitor, Actor.monitor, Actor.driver]

/-- The worker takes the one row and exits, and the main thread joins it, before the
monitor has run. -/
def scheduleJoinFirst : List Actor :=
  [Actor.worker 0, Actor.worker 0, Actor.worker 0, Actor.worker 0, Actor.driver]

/-- The main thread stores `done`; the monitor reads the queue length, prints, loads
`done` and exits. -/
def scheduleThenMonitor : List Actor :=
  [Actor.driver, Actor.monitor, Actor.monitor, Actor.monitor]

/-- An interleaving of `pool4cap2` on `surface1x10` in which the monitor reads the
queue length four times while workers 0 and 1 claim rows. -/
def scheduleSamples : List Actor :=
  [Actor.monitor, Actor.monitor, Actor.worker 0, Actor.monitor, Actor.monitor,
   Actor.monitor, Actor.worker 1, Actor.worker 0, Actor.worker 0, Actor.monitor,
   Actor.monitor, Actor.monitor, Actor.worker 2, Actor.monitor, Actor.monitor]

/-! ## The entry points and their exit status -/

/-- What the environment answers to `main` of `Lab3.cpp`: the return values of
`SDL_Init`, `SDL_LoadBMP` (`none` for `NULL`), `pthread_mutex_init` and
`SDL_SaveBMP`, the first value of `done`, and the interleaving of the threads. -/
structure Lab3Env where
  SDL_Init : Int
  SDL_LoadBMP : Option SDL_Surface
  pthread_mutex_init : Int
  done0 : Bool
  schedule : List Actor
  SDL_SaveBMP : Int
  deriving DecidableEq, Repr

/-- The function `main` of `Lab3.cpp` (the branch without `_WIN32`), as its return
value: `-1` when `SDL_Init` or `SDL_LoadBMP` fails, `1` when `pthread_mutex_init`
fails, and `0` after the joins;
`SDL_SaveBMP(image, "output.bmp")` is called as a statement and its value is not
looked at. The result is `none` as long as the interleaving has not brought the main
thread past `progressBar.join()`. -/
def Lab3_main (env : Lab3Env) : Option Int :=
  if env.SDL_Init ≠ 0 then some (-1)
  else
    match env.SDL_LoadBMP with
    | none => some (-1)
    | some image =>
      if env.pthread_mutex_init ≠ 0 then some 1
      else if (run lab3Config env.schedule (init lab3Config image env.done0)).driver
          = DriverPc.finished then some 0
      else none

/-- What the environment answers to `increaseContrast(std::string path)` of
`Lab4-library.cpp` (the branch without `_WIN32`): the return values of the calls on
the input file, of `SDL_LoadBMP_RW`, of `pthread_mutex_init`, of the calls on
`output.bmp` and of `SDL_SaveBMP_RW`; `mmap` is `false` for `MAP_FAILED`. -/
structure Lab4Env where
  SDL_Init : Int
  openInput : Int
  fstatInput : Int
  mmapInput : Bool
  SDL_LoadBMP_RW : Option SDL_Surface
  pthread_mutex_init : Int
  done0 : Bool
  schedule : List Actor
  openOutput : Int
  fstatOutput : Int
  mmapOutput : Bool
  SDL_SaveBMP_RW : Int
  msync : Int
  deriving DecidableEq, Repr

/-- The function `increaseContrast(std::string path)` of `Lab4-library.cpp`, as its
return value: `1` when `open`, `fstat`, `mmap` or `msync` fails on either file or
`pthread_mutex_init` fails, `-1` when `SDL_Init` or `SDL_LoadBMP_RW` fails, else `0`;
the value of `SDL_SaveBMP_RW(...)` is not looked at. -/
def Lab4_increaseContrast (env : Lab4Env) : Option Int :=
  if env.SDL_Init ≠ 0 then some (-1)
  else if env.openInput = -1 then some 1
  else if env.fstatInput = -1 then some 1
  else if env.mmapInput = false then some 1
  else
    match env.SDL_LoadBMP_RW with
    | none => some (-1)
    | some image =>
      if env.pthread_mutex_init ≠ 0 then some 1
      else if (run lab4Config env.schedule (init lab4Config image env.done0)).driver
          = DriverPc.finished then
        if env.openOutput = -1 then some 1
        else if env.fstatOutput = -1 then some 1
        else if env.mmapOutput = false then some 1
        else if env.msync = -1 then some 1
        else some 0
      else none

/-- The twelve workers of `lab4Config` on one row: worker 0 takes the row, every
worker finds the queue empty, the main thread joins them and stores `done`, the
monitor prints once and exits, and the main thread joins it. -/
def scheduleLab4 : List Actor :=
  oneRow 0 ++ (List.range 12).map Actor.worker ++
  [Actor.driver, Actor.driver, Actor.monitor, Actor.monitor, Actor.monitor, Actor.driver]

/-- An environment of `Lab3.cpp` in which everything succeeds except that
`SDL_SaveBMP` fails (returns `-1`). -/
def saveFailsLab3 : Lab3Env :=
  { SDL_Init := 0, SDL_LoadBMP := some surface1x1, pthread_mutex_init := 0, done0 := false,
    schedule := scheduleJoinFirst ++ scheduleThenMonitor ++ [Actor.driver],
    SDL_SaveBMP := -1 }

/-- An environment of `Lab4-library.cpp` in which everything succeeds except that
`SDL_SaveBMP_RW` fails (returns `-1`). -/
def saveFailsLab4 : Lab4Env :=
  { SDL_Init := 0, openInput := 3, fstatInput := 0, mmapInput := true,
    SDL_LoadBMP_RW := some surface1x1, pthread_mutex_init := 0, done0 := false,
    schedule := scheduleLab4, openOutput := 3, fstatOutput := 0, mmapOutput := true,
    SDL_SaveBMP_RW := -1, msync := 0 }

/-- Worker 0 takes `n` rows one after the other: `n` times claim, transform, release. -/
def drainSchedule : Nat → List Actor
  | 0 => []
  | n + 1 => oneRow 0 ++ drainSchedule n

/-- An interleaving that completes a run on `h` rows with `threads` workers: worker 0
takes every row, then each worker in turn finds the queue empty. -/
def completingSchedule (h threads : Nat) : List Actor :=
  drainSchedule h ++ (List.range' 0 threads).map Actor.worker

/-! ## The stores of the row transform and the static partition of `Lab2.cpp` -/

/-- The byte offsets of the stores `pixel[c] = ...` that
`decreaseContrast(image, startY, endY, contrastFactor)` performs, in program order:
`y * pitch + x * BytesPerPixel + c` for `y` from `startY` below `endY`, `x` below `w`
and `c` below `BytesPerPixel`. -/
def storeOffsets (image : SDL_Surface) (startY endY : Nat) : List Nat :=
  (List.range' startY (endY - startY)).flatMap (fun y =>
    (List.range image.w).flatMap (fun x =>
      (List.range image.BytesPerPixel).map
        (fun c => y * image.pitch + x * image.BytesPerPixel + c)))

/-- The rows that thread `i` of METHOD 3 of `Lab2.cpp` transforms, in order:
`int everyXth = THREADS;`
`int rows = image->h % everyXth > i ? image->h / everyXth + 1 : image->h / everyXth;`
and in the thread `for (int j = 0; j < rows; j++) { int row = j * everyXth + i; ... }`.
For `h ≥ 0` and `THREADS ≥ 1` the `int` quotient and remainder are those of `Nat`. -/
def method3Rows (h THREADS i : Nat) : List Nat :=
  let everyXth := THREADS
  let rows := if h % everyXth > i then h / everyXth + 1 else h / everyXth
  (List.range rows).map (fun j => j * everyXth + i)

/-- The row lists of the threads `i = 0 .. THREADS - 1` that the loop
`for (int i = 0; i < THREADS; ++i)` of METHOD 3 creates. -/
def method3Threads (h THREADS : Nat) : List (List Nat) :=
  (List.range THREADS).map (method3Rows h THREADS)

/-- The worker claims the one row: the queue is empty from here on, and the monitor
has not run yet. -/
def scheduleClaimFirst : List Actor := [Actor.worker 0]

/-- The monitor reads `left = 0` while the worker still holds its row; the worker
transforms and releases the row and exits, the main thread joins it and stores
`done`, and the monitor prints, loads `done`, clears the line and exits. -/
def scheduleSampleBeforeJoin : List Actor :=
  [Actor.monitor, Actor.worker 0, Actor.worker 0, Actor.worker 0, Actor.driver,
   Actor.driver, Actor.monitor, Actor.monitor, Actor.driver]

/-! ## Theorems -/

/-! ### Pointwise description of the loops -/

theorem contrastByte_eq (v c : Nat) (hv : v < 256) : contrastByte v c = v - c := by
  unfold contrastByte storeU8
  omega

theorem channelLoop_length (n cf base : Nat) (px : List Nat) :
    (channelLoop n cf base px).length = px.length := by
  induction n with
  | zero => simp [channelLoop]
  | succ n ih =>
    unfold channelLoop at ih ⊢
    rw [List.range_succ, List.foldl_append]
    simp [channelBody, ih]

theorem channelLoop_getElem? (n cf base : Nat) (px : List Nat) (i : Nat) :
    (channelLoop n cf base px)[i]? =
      if base ≤ i ∧ i < base + n then px[i]?.map (fun v => contrastByte v cf) else px[i]? := by
  induction n with
  | zero =>
    have h0 : ¬ (base ≤ i ∧ i < base + 0) := by omega
    rw [if_neg h0]
    simp [channelLoop]
  | succ n ih =>
    have hlen := channelLoop_length n cf base px
    unfold channelLoop at ih hlen ⊢
    rw [List.range_succ, List.foldl_append]
    simp only [List.foldl_cons, List.foldl_nil, channelBody, List.getElem?_set,
      List.getD_eq_getElem?_getD]
    by_cases h : base + n = i
    · subst h
      have hprev : (List.foldl (channelBody cf base) px (List.range n))[base + n]? = px[base + n]? := by
        rw [ih]; simp
      rw [hprev, hlen]
      by_cases hl : base + n < px.length
      · simp [hl, List.getElem?_eq_getElem hl]
      · simp [hl, List.getElem?_eq_none (Nat.le_of_not_lt hl)]
    · rw [if_neg h, ih]
      have : (base ≤ i ∧ i < base + (n + 1)) ↔ (base ≤ i ∧ i < base + n) := by omega
      simp only [this]

theorem pixelLoop_getElem? (w pitch bpp cf y : Nat) (px : List Nat) (i : Nat) :
    (pixelLoop w pitch bpp cf y px)[i]? =
      if y * pitch ≤ i ∧ i < y * pitch + w * bpp
      then px[i]?.map (fun v => contrastByte v cf) else px[i]? := by
  induction w with
  | zero =>
    have h0 : ¬ (y * pitch ≤ i ∧ i < y * pitch + 0 * bpp) := by omega
    rw [if_neg h0]
    simp [pixelLoop]
  | succ w ih =>
    unfold pixelLoop at ih ⊢
    rw [List.range_succ, List.foldl_append]
    simp only [List.foldl_cons, List.foldl_nil]
    rw [channelLoop_getElem?, ih]
    have hmul : (w + 1) * bpp = w * bpp + bpp := Nat.succ_mul w bpp
    rw [hmul]
    by_cases h1 : y * pitch + w * bpp ≤ i ∧ i < y * pitch + w * bpp + bpp
    · have h2 : ¬ (y * pitch ≤ i ∧ i < y * pitch + w * bpp) := by omega
      have h3 : y * pitch ≤ i ∧ i < y * pitch + (w * bpp + bpp) := by omega
      rw [if_pos h1, if_neg h2, if_pos h3]
    · rw [if_neg h1]
      have h4 : (y * pitch ≤ i ∧ i < y * pitch + (w * bpp + bpp)) ↔
          (y * pitch ≤ i ∧ i < y * pitch + w * bpp) := by omega
      simp only [h4]

theorem inRow_disjoint {w pitch bpp y1 y2 i : Nat} (hp : w * bpp ≤ pitch)
    (h1 : inRow w pitch bpp y1 i) (h2 : inRow w pitch bpp y2 i) : y1 = y2 := by
  unfold inRow at h1 h2
  rcases Nat.lt_trichotomy y1 y2 with h | h | h
  · have := Nat.mul_le_mul_right pitch (Nat.succ_le_of_lt h)
    rw [Nat.succ_mul] at this
    omega
  · exact h
  · have := Nat.mul_le_mul_right pitch (Nat.succ_le_of_lt h)
    rw [Nat.succ_mul] at this
    omega

theorem rowLoop_getElem? (w pitch bpp cf startY n : Nat) (hp : w * bpp ≤ pitch)
    (px : List Nat) (i : Nat) :
    ((List.range' startY n).foldl (fun px y => pixelLoop w pitch bpp cf y px) px)[i]? =
      if inRows w pitch bpp startY (startY + n) i
      then px[i]?.map (fun v => contrastByte v cf) else px[i]? := by
  induction n with
  | zero =>
    have h0 : ¬ inRows w pitch bpp startY (startY + 0) i := by
      rintro ⟨y, h1, h2, _⟩
      omega
    rw [if_neg h0]
    simp
  | succ n ih =>
    rw [List.range'_concat, List.foldl_append]
    simp only [List.foldl_cons, List.foldl_nil, Nat.one_mul]
    rw [pixelLoop_getElem?, ih]
    by_cases h1 : (startY + n) * pitch ≤ i ∧ i < (startY + n) * pitch + w * bpp
    · have h2 : ¬ inRows w pitch bpp startY (startY + n) i := by
        rintro ⟨y, hy2, _, hy3⟩
        have := inRow_disjoint hp hy3 h1
        omega
      have h3 : inRows w pitch bpp startY (startY + (n + 1)) i :=
        ⟨startY + n, by omega, by omega, h1⟩
      rw [if_pos h1, if_neg h2, if_pos h3]
    · rw [if_neg h1]
      have h4 : inRows w pitch bpp startY (startY + (n + 1)) i ↔
          inRows w pitch bpp startY (startY + n) i := by
        constructor
        · rintro ⟨y, hy2, hy1, hy3⟩
          have hne : y ≠ startY + n := by
            rintro rfl
            exact h1 hy3
          exact ⟨y, by omega, hy1, hy3⟩
        · rintro ⟨y, hy2, hy1, hy3⟩
          exact ⟨y, by omega, hy1, hy3⟩
      simp only [h4]

/-- Pointwise description of `decreaseContrast` on a surface whose rows do not
overlap (`w * BytesPerPixel ≤ pitch`): the bytes of the pixel data of rows
`startY .. endY - 1` are mapped through `contrastByte`, all others are kept. -/
theorem decreaseContrast_getElem? (image : SDL_Surface) (startY endY cf : Nat)
    (hp : image.w * image.BytesPerPixel ≤ image.pitch) (i : Nat) :
    (decreaseContrast image startY endY cf).pixels[i]? =
      if inRows image.w image.pitch image.BytesPerPixel startY endY i
      then image.pixels[i]?.map (fun v => contrastByte v cf) else image.pixels[i]? := by
  unfold decreaseContrast
  simp only
  rw [rowLoop_getElem? _ _ _ _ _ _ hp]
  have h : inRows image.w image.pitch image.BytesPerPixel startY (startY + (endY - startY)) i ↔
      inRows image.w image.pitch image.BytesPerPixel startY endY i := by
    constructor
    · rintro ⟨y, h2, h1, h3⟩
      exact ⟨y, by omega, h1, h3⟩
    · rintro ⟨y, h2, h1, h3⟩
      exact ⟨y, by omega, h1, h3⟩
  simp only [h]

theorem pixel_inRow {w pitch bpp y x c : Nat} (hx : x < w) (hc : c < bpp) :
    inRow w pitch bpp y (y * pitch + x * bpp + c) := by
  unfold inRow
  have h1 : (x + 1) * bpp ≤ w * bpp := Nat.mul_le_mul_right bpp hx
  rw [Nat.succ_mul] at h1
  omega

/-! ### C1: the stored byte -/

/-- C1: for a byte `v` below 256 the value that `decreaseContrast` stores is
`max(0, v - c)` taken over the integers, with no wrap-around; and on a surface whose
rows do not overlap, after `decreaseContrast image startY endY c` the byte of channel
`c` of pixel `x < w` of every row `startY ≤ y < endY` is `max(0, v - c)` of the byte
`v` that stood there before. -/
theorem decreaseContrast_stores_clamped_difference
    (image : SDL_Surface) (startY endY contrastFactor : Nat)
    (hbytes : ∀ b ∈ image.pixels, b < 256)
    (hpitch : image.w * image.BytesPerPixel ≤ image.pitch) :
    (∀ v : Nat, v < 256 →
      ((contrastByte v contrastFactor : Nat) : Int) = max 0 ((v : Int) - (contrastFactor : Int))) ∧
    (∀ y x c : Nat, startY ≤ y → y < endY → x < image.w → c < image.BytesPerPixel →
      y * image.pitch + x * image.BytesPerPixel + c < image.pixels.length →
      (((decreaseContrast image startY endY contrastFactor).pixels.getD
          (y * image.pitch + x * image.BytesPerPixel + c) 0 : Nat) : Int) =
        max 0 ((image.pixels.getD (y * image.pitch + x * image.BytesPerPixel + c) 0 : Int)
          - (contrastFactor : Int))) := by
  have hbyte : ∀ v : Nat, v < 256 →
      ((contrastByte v contrastFactor : Nat) : Int) =
        max 0 ((v : Int) - (contrastFactor : Int)) := by
    intro v hv
    rw [contrastByte_eq v contrastFactor hv]
    omega
  refine ⟨hbyte, ?_⟩
  intro y x c hy1 hy2 hx hc hoff
  have hin : inRows image.w image.pitch image.BytesPerPixel startY endY
      (y * image.pitch + x * image.BytesPerPixel + c) :=
    ⟨y, hy2, hy1, pixel_inRow hx hc⟩
  rw [List.getD_eq_getElem?_getD, List.getD_eq_getElem?_getD,
    decreaseContrast_getElem? image startY endY contrastFactor hpitch, if_pos hin,
    List.getElem?_eq_getElem hoff]
  simp only [Option.map_some', Option.getD_some]
  exact hbyte _ (hbytes _ (List.getElem_mem hoff))

/-! ### The steps of the threads, case by case -/

theorem set_decomp {α : Type} (ws : List α) (i : Nat) (w : α) (h : ws[i]? = some w) :
    ∃ l1 l2, ws = l1 ++ w :: l2 ∧ ∀ v, ws.set i v = l1 ++ v :: l2 := by
  induction ws generalizing i with
  | nil => simp at h
  | cons a rest ih =>
    cases i with
    | zero =>
      simp at h
      subst h
      exact ⟨[], rest, rfl, fun v => rfl⟩
    | succ j =>
      simp at h
      obtain ⟨l1, l2, h1, h2⟩ := ih j h
      refine ⟨a :: l1, l2, by simp [h1], fun v => ?_⟩
      simp [List.set, h2 v]

/-- Case analysis of one worker action: to show `P` of the next state it is enough
to show it for each way the action can go, with the worker list split around the
acting worker. -/
theorem workerStep_elim (cfg : Config) (s : Sched) (i : Nat) (P : Sched → Prop)
    (hstay : P s)
    (hexit : ∀ l1 l2, s.workers = l1 ++ WorkerPc.locking :: l2 → s.rowsToProcess = [] →
      P { s with workers := l1 ++ WorkerPc.exited :: l2 })
    (hlost : ∀ front rest, s.rowsToProcess = front :: rest →
      s.currentlyWorking < cfg.MAX_WORKERS → front = -1 →
      P { s with rowsToProcess := rest, currentlyWorking := s.currentlyWorking + 1 })
    (hclaim : ∀ l1 l2 front rest, s.workers = l1 ++ WorkerPc.locking :: l2 →
      s.rowsToProcess = front :: rest → s.currentlyWorking < cfg.MAX_WORKERS → front ≠ -1 →
      P { s with rowsToProcess := rest, currentlyWorking := s.currentlyWorking + 1,
                 workers := l1 ++ WorkerPc.transforming front :: l2,
                 claimed := s.claimed ++ [front] })
    (htransform : ∀ l1 l2 row, s.workers = l1 ++ WorkerPc.transforming row :: l2 →
      P { s with image := decreaseContrast s.image row.toNat (row.toNat + 1)
                            (cfg.CONTRAST_FACTOR % 256),
                 workers := l1 ++ WorkerPc.releasing row :: l2,
                 transformed := s.transformed ++ [row] })
    (hrelease : ∀ l1 l2 row, s.workers = l1 ++ WorkerPc.releasing row :: l2 →
      P { s with currentlyWorking := s.currentlyWorking - 1,
                 workers := l1 ++ WorkerPc.locking :: l2,
                 released := s.released ++ [row] }) :
    P (workerStep cfg s i) := by
  unfold workerStep
  cases hw : s.workers[i]? with
  | none => exact hstay
  | some w =>
    obtain ⟨l1, l2, hl, hset⟩ := set_decomp s.workers i w hw
    cases w with
    | exited => exact hstay
    | locking =>
      simp only
      cases hq : s.rowsToProcess with
      | nil =>
        simp only [tryClaim, Claim.outcome, if_true, hset]
        have := hexit l1 l2 hl hq
        rw [hq] at this
        exact this
      | cons front rest =>
        by_cases hlt : s.currentlyWorking < cfg.MAX_WORKERS
        · by_cases hf : front = -1
          · simp only [tryClaim, Claim.outcome, if_pos hlt, hf, if_true, Bool.false_eq_true,
              if_false]
            exact hlost front rest hq hlt hf
          · simp only [tryClaim, Claim.outcome, if_pos hlt, if_neg hf, Bool.false_eq_true,
              if_false, hset]
            exact hclaim l1 l2 front rest hl hq hlt hf
        · simp only [tryClaim, Claim.outcome, if_neg hlt, if_true, Bool.false_eq_true,
            if_false]
          have : { s with rowsToProcess := front :: rest, currentlyWorking := s.currentlyWorking } = s := by
            cases s
            simp at hq
            simp [hq]
          rw [this]
          exact hstay
    | transforming row =>
      simp only [hset]
      exact htransform l1 l2 row hl
    | releasing row =>
      simp only [hset]
      exact hrelease l1 l2 row hl

/-- Case analysis of one action of the progress monitor. -/
theorem monitorStep_elim (s : Sched) (P : Sched → Prop)
    (hstay : P s)
    (hsample : s.monitor = MonitorPc.sampling →
      P { s with monitor := MonitorPc.rendering s.rowsToProcess.length })
    (hrender : ∀ left, s.monitor = MonitorPc.rendering left →
      P { s with rendered := s.rendered ++ [left], monitor := MonitorPc.checking })
    (hexit : s.monitor = MonitorPc.checking → s.done = true →
      P { s with monitor := MonitorPc.exited })
    (hsleep : s.monitor = MonitorPc.checking → s.done = false →
      P { s with monitor := MonitorPc.sampling }) :
    P (monitorStep s) := by
  unfold monitorStep
  cases hm : s.monitor with
  | sampling => exact hsample hm
  | rendering left => exact hrender left hm
  | checking =>
    cases hd : s.done with
    | true => simpa [hd] using hexit hm hd
    | false => simpa [hd] using hsleep hm hd
  | exited => exact hstay

/-- Case analysis of one action of the main thread. -/
theorem driverStep_elim (s : Sched) (P : Sched → Prop)
    (hstay : P s)
    (hjoined : s.driver = DriverPc.joiningWorkers → allExited s.workers = true →
      P { s with driver := DriverPc.storingDone })
    (hstore : s.driver = DriverPc.storingDone →
      P { s with done := true, driver := DriverPc.joiningMonitor })
    (hfinish : s.driver = DriverPc.joiningMonitor → s.monitor = MonitorPc.exited →
      P { s with driver := DriverPc.finished }) :
    P (driverStep s) := by
  unfold driverStep
  cases hd : s.driver with
  | joiningWorkers =>
    by_cases h : allExited s.workers = true
    · simpa [h] using hjoined hd h
    · simpa [h] using hstay
  | storingDone => exact hstore hd
  | joiningMonitor =>
    by_cases h : s.monitor = MonitorPc.exited
    · simpa [h] using hfinish hd h
    · simpa [h] using hstay
  | finished => exact hstay

theorem run_induction (cfg : Config) (P : Sched → Prop)
    (hstep : ∀ s a, P s → P (step cfg s a)) :
    ∀ (schedule : List Actor) (s : Sched), P s → P (run cfg schedule s) := by
  intro schedule
  induction schedule with
  | nil => intro s hs; exact hs
  | cons a rest ih =>
    intro s hs
    exact ih (step cfg s a) (hstep s a hs)

/-! ### The queue invariant -/

theorem InvQ_init (cfg : Config) (image : SDL_Surface) (done0 : Bool) :
    InvQ image.h (init cfg image done0) := by
  unfold InvQ init
  simp [List.range_eq_range']

theorem InvQ_front {h : Nat} {s : Sched} (hs : InvQ h s) {front : Int} {rest : List Int}
    (hq : s.rowsToProcess = front :: rest) :
    front = (s.claimed.length : Int) ∧ s.claimed.length < h ∧
      rest = (List.range' (s.claimed.length + 1) (h - (s.claimed.length + 1))).map Int.ofNat := by
  obtain ⟨h1, _, h3⟩ := hs
  rw [hq] at h3
  by_cases hk : s.claimed.length < h
  · have hsub : h - s.claimed.length = (h - (s.claimed.length + 1)) + 1 := by omega
    rw [hsub, List.range'_succ] at h3
    simp only [List.map_cons, List.cons.injEq] at h3
    exact ⟨h3.1, hk, h3.2⟩
  · have hsub : h - s.claimed.length = 0 := by omega
    rw [hsub] at h3
    simp at h3

theorem InvQ_step (cfg : Config) (h : Nat) (s : Sched) (a : Actor) (hs : InvQ h s) :
    InvQ h (step cfg s a) := by
  cases a with
  | monitor =>
    exact monitorStep_elim s (InvQ h) hs (fun _ => hs) (fun _ _ => hs) (fun _ _ => hs)
      (fun _ _ => hs)
  | driver =>
    exact driverStep_elim s (InvQ h) hs (fun _ _ => hs) (fun _ => hs) (fun _ _ => hs)
  | worker i =>
    refine workerStep_elim cfg s i (InvQ h) hs ?_ ?_ ?_ ?_ ?_
    · intro l1 l2 _ _
      exact hs
    · intro front rest hq _ hf
      have := (InvQ_front hs hq).1
      omega
    · intro l1 l2 front rest _ hq _ _
      obtain ⟨hf, hk, hrest⟩ := InvQ_front hs hq
      obtain ⟨_, h2, _⟩ := hs
      refine ⟨?_, ?_, ?_⟩
      · simp only [List.length_append, List.length_singleton]
        omega
      · simp only [List.length_append, List.length_singleton, List.range_succ, List.map_append,
          List.map_cons, List.map_nil]
        rw [← h2, hf]
        rfl
      · simp only [List.length_append, List.length_singleton]
        exact hrest
    · intro l1 l2 row _
      exact hs
    · intro l1 l2 row _
      exact hs

/-! ### The bookkeeping invariant -/

theorem holding_split (l1 l2 : List WorkerPc) (w : WorkerPc) :
    holding (l1 ++ w :: l2) = holding l1 ++ holding [w] ++ holding l2 := by
  unfold holding
  rw [show w :: l2 = [w] ++ l2 from rfl, List.filterMap_append, List.filterMap_append,
    List.append_assoc]

theorem finishing_split (l1 l2 : List WorkerPc) (w : WorkerPc) :
    finishing (l1 ++ w :: l2) = finishing l1 ++ finishing [w] ++ finishing l2 := by
  unfold finishing
  rw [show w :: l2 = [w] ++ l2 from rfl, List.filterMap_append, List.filterMap_append,
    List.append_assoc]

theorem holding_replicate_locking (n : Nat) :
    holding (List.replicate n WorkerPc.locking) = [] := by
  induction n with
  | zero => rfl
  | succ n ih => simp [List.replicate_succ, holding]

theorem finishing_replicate_locking (n : Nat) :
    finishing (List.replicate n WorkerPc.locking) = [] := by
  induction n with
  | zero => rfl
  | succ n ih => simp [List.replicate_succ, finishing]

theorem InvW_init (cfg : Config) (image : SDL_Surface) (done0 : Bool)
    (hcap : 0 ≤ cfg.MAX_WORKERS) : InvW cfg (init cfg image done0) := by
  unfold InvW init
  simp [holding_replicate_locking, finishing_replicate_locking, hcap]

theorem InvW_step (cfg : Config) (h : Nat) (s : Sched) (a : Actor) (hq : InvQ h s)
    (hs : InvW cfg s) : InvW cfg (step cfg s a) := by
  cases a with
  | monitor =>
    exact monitorStep_elim s (InvW cfg) hs (fun _ => hs) (fun _ _ => hs) (fun _ _ => hs)
      (fun _ _ => hs)
  | driver =>
    exact driverStep_elim s (InvW cfg) hs (fun _ _ => hs) (fun _ => hs) (fun _ _ => hs)
  | worker i =>
    obtain ⟨h1, h2, h3, h4, h5⟩ := hs
    refine workerStep_elim cfg s i (InvW cfg) ⟨h1, h2, h3, h4, h5⟩ ?_ ?_ ?_ ?_ ?_
    · intro l1 l2 hl _
      rw [hl] at h1 h2 h3 h4
      simp only [holding_split, finishing_split] at h2 h3 h4
      refine ⟨?_, ?_, ?_, ?_, h5⟩
      · simpa using h1
      · simpa [holding_split, holding] using h2
      · simpa [finishing_split, finishing] using h3
      · simpa [holding_split, finishing_split, holding, finishing] using h4
    · intro front rest hrows _ hf
      have := (InvQ_front hq hrows).1
      omega
    · intro l1 l2 front rest hl _ hlt _
      rw [hl] at h1 h2 h3 h4
      refine ⟨?_, ?_, ?_, ?_, ?_⟩
      · simpa using h1
      · intro r
        have := h2 r
        simp [holding_split, holding, List.count_cons, List.count_append] at this ⊢
        omega
      · simpa [finishing_split, finishing] using h3
      · simp [holding_split, finishing_split, holding, finishing] at h4 ⊢
        omega
      · simp only
        omega
    · intro l1 l2 row hl
      rw [hl] at h1 h2 h3 h4
      refine ⟨?_, ?_, ?_, ?_, h5⟩
      · simpa using h1
      · intro r
        have := h2 r
        simp [holding_split, holding, List.count_cons, List.count_append] at this ⊢
        omega
      · intro r
        have := h3 r
        simp [finishing_split, finishing, List.count_cons, List.count_append] at this ⊢
        omega
      · simp [holding_split, finishing_split, holding, finishing] at h4 ⊢
        omega
    · intro l1 l2 row hl
      rw [hl] at h1 h2 h3 h4
      refine ⟨?_, ?_, ?_, ?_, ?_⟩
      · simpa using h1
      · simpa [holding_split, holding] using h2
      · intro r
        have := h3 r
        simp [finishing_split, finishing, List.count_cons, List.count_append] at this ⊢
        omega
      · simp [holding_split, finishing_split, holding, finishing] at h4 ⊢
        omega
      · simp only
        omega

/-! ### Exits, joins and the image -/

theorem allExited_split (l1 l2 : List WorkerPc) (w : WorkerPc) :
    allExited (l1 ++ w :: l2) = true ↔
      allExited l1 = true ∧ w = WorkerPc.exited ∧ allExited l2 = true := by
  simp [allExited]

theorem allExited_iff (ws : List WorkerPc) :
    allExited ws = true ↔ ∀ w ∈ ws, w = WorkerPc.exited := by
  simp [allExited]

theorem InvD_init (cfg : Config) (image : SDL_Surface) (done0 : Bool) :
    InvD (init cfg image done0) := by
  unfold InvD init
  simp [List.mem_replicate]

theorem InvD_step (cfg : Config) (s : Sched) (a : Actor) (hs : InvD s) :
    InvD (step cfg s a) := by
  cases a with
  | monitor =>
    exact monitorStep_elim s InvD hs (fun _ => hs) (fun _ _ => hs) (fun _ _ => hs)
      (fun _ _ => hs)
  | driver =>
    obtain ⟨h1, h2⟩ := hs
    refine driverStep_elim s InvD ⟨h1, h2⟩ ?_ ?_ ?_
    · intro _ hall
      exact ⟨h1, fun _ => hall⟩
    · intro hd
      exact ⟨h1, fun _ => h2 (by rw [hd]; simp)⟩
    · intro hd _
      exact ⟨h1, fun _ => h2 (by rw [hd]; simp)⟩
  | worker i =>
    obtain ⟨h1, h2⟩ := hs
    refine workerStep_elim cfg s i InvD ⟨h1, h2⟩ ?_ ?_ ?_ ?_ ?_
    · intro l1 l2 hl hrows
      refine ⟨fun _ => hrows, fun hd => ?_⟩
      have := h2 hd
      rw [hl, allExited_split] at this
      simp at this
    · intro front rest hrows _ _
      refine ⟨fun hmem => ?_, h2⟩
      have := h1 hmem
      rw [hrows] at this
      simp at this
    · intro l1 l2 front rest hl hrows _ _
      refine ⟨fun hmem => ?_, fun hd => ?_⟩
      · have hmem2 : WorkerPc.exited ∈ s.workers := by
          rw [hl]
          simp only [List.mem_append, List.mem_cons] at hmem ⊢
          rcases hmem with h | h | h
          · exact Or.inl h
          · simp at h
          · exact Or.inr (Or.inr h)
        have := h1 hmem2
        rw [hrows] at this
        simp at this
      · have := h2 hd
        rw [hl, allExited_split] at this
        simp at this
    · intro l1 l2 row hl
      refine ⟨fun hmem => ?_, fun hd => ?_⟩
      · apply h1
        rw [hl]
        simp only [List.mem_append, List.mem_cons] at hmem ⊢
        rcases hmem with h | h | h
        · exact Or.inl h
        · simp at h
        · exact Or.inr (Or.inr h)
      · have := h2 hd
        rw [hl, allExited_split] at this
        simp at this
    · intro l1 l2 row hl
      refine ⟨fun hmem => ?_, fun hd => ?_⟩
      · apply h1
        rw [hl]
        simp only [List.mem_append, List.mem_cons] at hmem ⊢
        rcases hmem with h | h | h
        · exact Or.inl h
        · simp at h
        · exact Or.inr (Or.inr h)
      · have := h2 hd
        rw [hl, allExited_split] at this
        simp at this

theorem InvI_init (cfg : Config) (image : SDL_Surface) (done0 : Bool) :
    InvI cfg image (init cfg image done0) := by
  unfold InvI init
  rfl

theorem InvI_step (cfg : Config) (image : SDL_Surface) (s : Sched) (a : Actor)
    (hs : InvI cfg image s) : InvI cfg image (step cfg s a) := by
  cases a with
  | monitor =>
    exact monitorStep_elim s (InvI cfg image) hs (fun _ => hs) (fun _ _ => hs) (fun _ _ => hs)
      (fun _ _ => hs)
  | driver =>
    exact driverStep_elim s (InvI cfg image) hs (fun _ _ => hs) (fun _ => hs) (fun _ _ => hs)
  | worker i =>
    refine workerStep_elim cfg s i (InvI cfg image) hs ?_ ?_ ?_ ?_ ?_
    · intro l1 l2 _ _
      exact hs
    · intro front rest _ _ _
      exact hs
    · intro l1 l2 front rest _ _ _ _
      exact hs
    · intro l1 l2 row _
      unfold InvI at hs ⊢
      simp only [List.foldl_append, List.foldl_cons, List.foldl_nil]
      rw [← hs]
    · intro l1 l2 row _
      exact hs

/-! ### The samples of the monitor -/

theorem pairwise_last_le {l : List Nat} {n m : Nat}
    (h : List.Pairwise (fun a b => b ≤ a) (l ++ [n])) (hm : m ≤ n) :
    List.Pairwise (fun a b => b ≤ a) (l ++ [m]) := by
  rw [List.pairwise_append] at h ⊢
  refine ⟨h.1, List.pairwise_singleton _ _, ?_⟩
  intro a ha b hb
  have h3 := h.2.2 a ha n (List.mem_singleton.mpr rfl)
  rw [List.mem_singleton] at hb
  omega

theorem InvM_init (cfg : Config) (image : SDL_Surface) (done0 : Bool) :
    InvM image.h (init cfg image done0) := by
  unfold InvM init
  simp [pending]

theorem InvM_step (cfg : Config) (h : Nat) (s : Sched) (a : Actor) (hs : InvM h s) :
    InvM h (step cfg s a) := by
  obtain ⟨h1, h2, h3⟩ := hs
  cases a with
  | driver =>
    exact driverStep_elim s (InvM h) ⟨h1, h2, h3⟩ (fun _ _ => ⟨h1, h2, h3⟩)
      (fun _ => ⟨h1, h2, h3⟩) (fun _ _ => ⟨h1, h2, h3⟩)
  | monitor =>
    refine monitorStep_elim s (InvM h) ⟨h1, h2, h3⟩ ?_ ?_ ?_ ?_
    · intro hm
      rw [hm] at h2 h3
      simp only [pending, List.append_nil] at h2 h3
      refine ⟨h1, ?_, ?_⟩
      · intro x hx
        simp only [pending, List.mem_append, List.mem_singleton] at hx
        rcases hx with hx | hx
        · exact h2 x hx
        · omega
      · simp only [pending]
        rw [List.pairwise_append]
        refine ⟨h3, List.pairwise_singleton _ _, ?_⟩
        intro a ha b hb
        rw [List.mem_singleton] at hb
        simp only [List.mem_append, List.mem_singleton] at ha
        rcases ha with ha | ha
        · rw [List.pairwise_append] at h3
          have := h3.2.2 a ha _ (List.mem_singleton.mpr rfl)
          omega
        · omega
    · intro left hm
      rw [hm] at h2 h3
      simp only [pending] at h2 h3
      refine ⟨h1, ?_, ?_⟩
      · simpa [pending] using h2
      · simpa [pending] using h3
    · intro hm _
      rw [hm] at h2 h3
      exact ⟨h1, h2, h3⟩
    · intro hm _
      rw [hm] at h2 h3
      exact ⟨h1, h2, h3⟩
  | worker i =>
    refine workerStep_elim cfg s i (InvM h) ⟨h1, h2, h3⟩ ?_ ?_ ?_ ?_ ?_
    · intro l1 l2 _ _
      exact ⟨h1, h2, h3⟩
    · intro front rest hrows _ _
      rw [hrows] at h1 h3
      simp only [List.length_cons] at h1 h3
      exact ⟨by simp only; omega, h2, pairwise_last_le h3 (Nat.le_succ _)⟩
    · intro l1 l2 front rest _ hrows _ _
      rw [hrows] at h1 h3
      simp only [List.length_cons] at h1 h3
      exact ⟨by simp only; omega, h2, pairwise_last_le h3 (Nat.le_succ _)⟩
    · intro l1 l2 row _
      exact ⟨h1, h2, h3⟩
    · intro l1 l2 row _
      exact ⟨h1, h2, h3⟩

/-! ### Every reachable state satisfies the invariants -/

theorem Inv_init (cfg : Config) (image : SDL_Surface) (done0 : Bool)
    (hcap : 0 ≤ cfg.MAX_WORKERS) : Inv cfg image (init cfg image done0) :=
  ⟨InvQ_init cfg image done0, InvW_init cfg image done0 hcap, InvD_init cfg image done0,
    InvI_init cfg image done0, InvM_init cfg image done0⟩

theorem Inv_step (cfg : Config) (image : SDL_Surface) (s : Sched) (a : Actor)
    (hs : Inv cfg image s) : Inv cfg image (step cfg s a) :=
  ⟨InvQ_step cfg image.h s a hs.1, InvW_step cfg image.h s a hs.1 hs.2.1,
    InvD_step cfg s a hs.2.2.1, InvI_step cfg image s a hs.2.2.2.1,
    InvM_step cfg image.h s a hs.2.2.2.2⟩

theorem Inv_run (cfg : Config) (image : SDL_Surface) (done0 : Bool)
    (hcap : 0 ≤ cfg.MAX_WORKERS) (schedule : List Actor) :
    Inv cfg image (run cfg schedule (init cfg image done0)) :=
  run_induction cfg (Inv cfg image) (fun s a hs => Inv_step cfg image s a hs) schedule _
    (Inv_init cfg image done0 hcap)

/-! ### C1, on an example -/

theorem decreaseContrast_stores_clamped_difference_witness :
    (∀ b ∈ surface2x2.pixels, b < 256) ∧
    surface2x2.w * surface2x2.BytesPerPixel ≤ surface2x2.pitch ∧
    (decreaseContrast surface2x2 0 2 128).pixels = [0, 0, 7, 127, 0, 9] ∧
    ((∀ v : Nat, v < 256 →
      ((contrastByte v 128 : Nat) : Int) = max 0 ((v : Int) - ((128 : Nat) : Int))) ∧
    (∀ y x c : Nat, 0 ≤ y → y < 2 → x < surface2x2.w → c < surface2x2.BytesPerPixel →
      y * surface2x2.pitch + x * surface2x2.BytesPerPixel + c < surface2x2.pixels.length →
      (((decreaseContrast surface2x2 0 2 128).pixels.getD
          (y * surface2x2.pitch + x * surface2x2.BytesPerPixel + c) 0 : Nat) : Int) =
        max 0 ((surface2x2.pixels.getD
          (y * surface2x2.pitch + x * surface2x2.BytesPerPixel + c) 0 : Int)
          - ((128 : Nat) : Int)))) :=
  ⟨by decide, by decide, by decide,
    decreaseContrast_stores_clamped_difference surface2x2 0 2 128 (by decide) (by decide)⟩

/-! ### C2: the locked claim section -/

/-- C2: the locked claim section has three outcomes. In every state: on an empty
queue the worker sees "exhausted" and queue and counter are unchanged; on a
non-empty queue with `MAX_WORKERS ≤ inFlight` it sees "not now" and queue and counter
are unchanged, the front row staying in the queue; and "exhausted" is reported
exactly on the empty queue, so it is never taken for "not now". When the queue holds
row indices only (none negative): below the cap the worker gets the front row,
exactly that element is removed and the counter grows by one, and "not now" is
reported exactly on a non-empty queue at the cap, so the `-1` sentinel never stands
for a claimed row. -/
theorem tryClaim_three_outcomes (MAX_WORKERS : Int) (queue : List Int) (inFlight : Int) :
    (queue = [] →
      (tryClaim MAX_WORKERS queue inFlight).outcome = Outcome.exhausted ∧
      (tryClaim MAX_WORKERS queue inFlight).rowsToProcess = queue ∧
      (tryClaim MAX_WORKERS queue inFlight).currentlyWorking = inFlight) ∧
    (queue ≠ [] → MAX_WORKERS ≤ inFlight →
      (tryClaim MAX_WORKERS queue inFlight).outcome = Outcome.notNow ∧
      (tryClaim MAX_WORKERS queue inFlight).rowsToProcess = queue ∧
      (tryClaim MAX_WORKERS queue inFlight).currentlyWorking = inFlight) ∧
    ((tryClaim MAX_WORKERS queue inFlight).outcome = Outcome.exhausted ↔ queue = []) ∧
    ((∀ r ∈ queue, 0 ≤ r) →
      (∀ front rest, queue = front :: rest → inFlight < MAX_WORKERS →
        (tryClaim MAX_WORKERS queue inFlight).outcome = Outcome.claimed front ∧
        (tryClaim MAX_WORKERS queue inFlight).rowsToProcess = rest ∧
        (tryClaim MAX_WORKERS queue inFlight).currentlyWorking = inFlight + 1) ∧
      ((tryClaim MAX_WORKERS queue inFlight).outcome = Outcome.notNow ↔
        (queue ≠ [] ∧ MAX_WORKERS ≤ inFlight))) := by
  cases queue with
  | nil => simp [tryClaim, Claim.outcome]
  | cons front rest =>
    by_cases hlt : inFlight < MAX_WORKERS
    · have hge : ¬ MAX_WORKERS ≤ inFlight := by omega
      refine ⟨by simp, by simp [hge], ?_, ?_⟩
      · by_cases hf : front = -1
        · simp [tryClaim, Claim.outcome, hlt, hf]
        · simp [tryClaim, Claim.outcome, hlt, hf]
      · intro hrows
        have hf : front ≠ -1 := by
          have := hrows front (List.mem_cons_self _ _)
          omega
        simp [tryClaim, Claim.outcome, hlt, hf, hge]
    · have hge : MAX_WORKERS ≤ inFlight := by omega
      simp [tryClaim, Claim.outcome, hlt, hge]

theorem tryClaim_three_outcomes_witness :
    (∀ r ∈ [(3 : Int), 4], 0 ≤ r) ∧
    (tryClaim 2 [3, 4] 1).outcome = Outcome.claimed 3 ∧
    (tryClaim 2 [3, 4] 1).rowsToProcess = [4] ∧
    (tryClaim 2 [3, 4] 1).currentlyWorking = 1 + 1 :=
  ⟨by decide,
    ((tryClaim_three_outcomes 2 [3, 4] 1).2.2.2 (by decide)).1 3 [4] rfl (by decide)⟩

/-! ### C3: the admission cap -/

/-- C3: started from the seeded queue and `currentlyWorking = 0`, in every state
reached by any interleaving of the threads, for any image height, any number of
worker threads and any cap `MAX_WORKERS ≥ 1`, `0 ≤ currentlyWorking ≤ MAX_WORKERS`. -/
theorem currentlyWorking_within_cap (cfg : Config) (image : SDL_Surface) (done0 : Bool)
    (hcap : 1 ≤ cfg.MAX_WORKERS) (schedule : List Actor) :
    0 ≤ (run cfg schedule (init cfg image done0)).currentlyWorking ∧
    (run cfg schedule (init cfg image done0)).currentlyWorking ≤ cfg.MAX_WORKERS := by
  have hinv := Inv_run cfg image done0 (by omega) schedule
  obtain ⟨_, _, _, h4, h5⟩ := hinv.2.1
  exact ⟨by omega, h5⟩

theorem currentlyWorking_within_cap_witness :
    (1 : Int) ≤ pool3cap2.MAX_WORKERS ∧
    0 ≤ (run pool3cap2 schedule2x2 (init pool3cap2 surface2x2 false)).currentlyWorking ∧
    (run pool3cap2 schedule2x2 (init pool3cap2 surface2x2 false)).currentlyWorking
      ≤ pool3cap2.MAX_WORKERS :=
  ⟨by decide, currentlyWorking_within_cap pool3cap2 surface2x2 false (by decide) schedule2x2⟩

/-! ### C4, C5: FIFO order and exactly-once processing -/

theorem count_map_range (k : Nat) (r : Int) :
    ((List.range k).map Int.ofNat).count r = if 0 ≤ r ∧ r < (k : Int) then 1 else 0 := by
  induction k with
  | zero =>
    have h0 : ¬ (0 ≤ r ∧ r < ((0 : Nat) : Int)) := by omega
    rw [if_neg h0]
    rfl
  | succ k ih =>
    rw [List.range_succ, List.map_append, List.count_append, ih]
    simp only [List.map_cons, List.map_nil, List.count_singleton, Int.ofNat_eq_coe, beq_iff_eq]
    by_cases h1 : (k : Int) = r
    · have h2 : ¬ (0 ≤ r ∧ r < (k : Int)) := by omega
      have h3 : 0 ≤ r ∧ r < ((k + 1 : Nat) : Int) := by omega
      rw [if_neg h2, if_pos h1, if_pos h3]
    · rw [if_neg h1]
      by_cases h2 : 0 ≤ r ∧ r < (k : Int)
      · have h3 : 0 ≤ r ∧ r < ((k + 1 : Nat) : Int) := by omega
        rw [if_pos h2, if_pos h3]
      · have h3 : ¬ (0 ≤ r ∧ r < ((k + 1 : Nat) : Int)) := by omega
        rw [if_neg h2, if_neg h3]

theorem holding_of_allExited {ws : List WorkerPc} (h : allExited ws = true) :
    holding ws = [] ∧ finishing ws = [] := by
  induction ws with
  | nil => exact ⟨rfl, rfl⟩
  | cons w rest ih =>
    rw [show w :: rest = [] ++ w :: rest from rfl, allExited_split] at h
    obtain ⟨_, hw, hrest⟩ := h
    subst hw
    obtain ⟨ih1, ih2⟩ := ih hrest
    constructor
    · simpa [holding] using ih1
    · simpa [finishing] using ih2

/-- In a state of a run where all of the `THREADS ≥ 1` workers have exited, every
row has been claimed. -/
theorem claimed_all_of_allExited {cfg : Config} {image : SDL_Surface} {s : Sched}
    (hs : Inv cfg image s) (hN : 1 ≤ cfg.THREADS) (hdone : allExited s.workers = true) :
    s.rowsToProcess = [] ∧ s.claimed.length = image.h := by
  obtain ⟨⟨hq1, _, hq3⟩, ⟨hw1, _⟩, ⟨hd1, _⟩, _, _⟩ := hs
  have hmem : WorkerPc.exited ∈ s.workers := by
    cases hws : s.workers with
    | nil =>
      rw [hws] at hw1
      simp at hw1
      omega
    | cons w rest =>
      rw [hws] at hdone
      have := (allExited_iff _).1 hdone w (List.mem_cons_self _ _)
      rw [this]
      exact List.mem_cons_self _ _
  have hempty := hd1 hmem
  refine ⟨hempty, ?_⟩
  rw [hempty] at hq3
  have := congrArg List.length hq3
  simp at this
  omega

/-- C5: in every state reached by any interleaving, for any image height, pool size
and cap, the rows returned by the successful claims so far, in the order the claims
happened over all threads, are `0, 1, 2, ...`: the `k`-th successful claim returned
row `k`. -/
theorem claims_in_fifo_order (cfg : Config) (image : SDL_Surface) (done0 : Bool)
    (schedule : List Actor) :
    (run cfg schedule (init cfg image done0)).claimed =
      (List.range (run cfg schedule (init cfg image done0)).claimed.length).map Int.ofNat ∧
    ∀ k, k < (run cfg schedule (init cfg image done0)).claimed.length →
      (run cfg schedule (init cfg image done0)).claimed[k]? = some (k : Int) := by
  have hq : InvQ image.h (run cfg schedule (init cfg image done0)) :=
    run_induction cfg (InvQ image.h) (fun s a hs => InvQ_step cfg image.h s a hs) schedule _
      (InvQ_init cfg image done0)
  obtain ⟨_, h2, _⟩ := hq
  refine ⟨h2, fun k hk => ?_⟩
  rw [h2, List.getElem?_map, List.getElem?_range (by simpa using hk)]
  rfl

/-- C4: for any number `THREADS ≥ 1` of workers, any cap `MAX_WORKERS ≥ 1` and any
interleaving: every claimed row is a row of the image, the rows held by workers are
pairwise different, and once all workers have left their loop each row index in
`[0, h)` has been claimed once, transformed once and released once, and no other
index at all. -/
theorem rows_processed_exactly_once (cfg : Config) (image : SDL_Surface) (done0 : Bool)
    (hN : 1 ≤ cfg.THREADS) (hcap : 1 ≤ cfg.MAX_WORKERS) (schedule : List Actor) :
    (∀ r ∈ (run cfg schedule (init cfg image done0)).claimed, 0 ≤ r ∧ r < (image.h : Int)) ∧
    (holding (run cfg schedule (init cfg image done0)).workers ++
      finishing (run cfg schedule (init cfg image done0)).workers).Nodup ∧
    (allExited (run cfg schedule (init cfg image done0)).workers = true →
      ∀ r : Int,
        (run cfg schedule (init cfg image done0)).claimed.count r =
          (if 0 ≤ r ∧ r < (image.h : Int) then 1 else 0) ∧
        (run cfg schedule (init cfg image done0)).transformed.count r =
          (if 0 ≤ r ∧ r < (image.h : Int) then 1 else 0) ∧
        (run cfg schedule (init cfg image done0)).released.count r =
          (if 0 ≤ r ∧ r < (image.h : Int) then 1 else 0)) := by
  have hinv := Inv_run cfg image done0 (by omega) schedule
  generalize run cfg schedule (init cfg image done0) = s at hinv ⊢
  have hq := hinv.1
  have hw := hinv.2.1
  obtain ⟨hq1, hq2, _⟩ := hq
  obtain ⟨_, hw2, hw3, _, _⟩ := hw
  have hcount : ∀ r : Int, s.claimed.count r =
      if 0 ≤ r ∧ r < (s.claimed.length : Int) then 1 else 0 := by
    intro r
    have := count_map_range s.claimed.length r
    rw [← hq2] at this
    exact this
  refine ⟨?_, ?_, ?_⟩
  · intro r hr
    have hpos : 0 < s.claimed.count r := List.count_pos_iff.2 hr
    rw [hcount r] at hpos
    by_cases hc : 0 ≤ r ∧ r < (s.claimed.length : Int)
    · omega
    · rw [if_neg hc] at hpos
      omega
  · rw [List.nodup_iff_count_le_one]
    intro r
    rw [List.count_append]
    have h1 := hw2 r
    have h2 := hw3 r
    have h3 := hcount r
    by_cases hc : 0 ≤ r ∧ r < (s.claimed.length : Int)
    · rw [if_pos hc] at h3
      omega
    · rw [if_neg hc] at h3
      omega
  · intro hdone r
    obtain ⟨_, hlen⟩ := claimed_all_of_allExited hinv hN hdone
    obtain ⟨hh, hf⟩ := holding_of_allExited hdone
    have h1 := hw2 r
    have h2 := hw3 r
    have h3 := hcount r
    rw [hh] at h1
    rw [hf] at h2
    rw [hlen] at h3
    simp only [List.count_nil, Nat.add_zero] at h1 h2
    exact ⟨h3, by omega, by omega⟩

theorem rows_processed_exactly_once_witness :
    1 ≤ pool3cap2.THREADS ∧ (1 : Int) ≤ pool3cap2.MAX_WORKERS ∧
    allExited (run pool3cap2 schedule2x2 (init pool3cap2 surface2x2 false)).workers = true ∧
    (∀ r : Int,
      (run pool3cap2 schedule2x2 (init pool3cap2 surface2x2 false)).claimed.count r =
        (if 0 ≤ r ∧ r < (surface2x2.h : Int) then 1 else 0) ∧
      (run pool3cap2 schedule2x2 (init pool3cap2 surface2x2 false)).transformed.count r =
        (if 0 ≤ r ∧ r < (surface2x2.h : Int) then 1 else 0) ∧
      (run pool3cap2 schedule2x2 (init pool3cap2 surface2x2 false)).released.count r =
        (if 0 ≤ r ∧ r < (surface2x2.h : Int) then 1 else 0)) :=
  ⟨by decide, by decide, by decide,
    (rows_processed_exactly_once pool3cap2 surface2x2 false (by decide) (by decide)
      schedule2x2).2.2 (by decide)⟩

/-! ### Rows transformed in any order -/

theorem inRows_single (w pitch bpp y i : Nat) :
    inRows w pitch bpp y (y + 1) i ↔ inRow w pitch bpp y i := by
  constructor
  · rintro ⟨y2, h1, h2, h3⟩
    have : y2 = y := by omega
    rw [← this]
    exact h3
  · intro h
    exact ⟨y, by omega, by omega, h⟩

theorem foldl_rows_dims (cf : Nat) (rows : List Nat) (im : SDL_Surface) :
    (rows.foldl (fun im y => decreaseContrast im y (y + 1) cf) im).w = im.w ∧
    (rows.foldl (fun im y => decreaseContrast im y (y + 1) cf) im).h = im.h ∧
    (rows.foldl (fun im y => decreaseContrast im y (y + 1) cf) im).pitch = im.pitch ∧
    (rows.foldl (fun im y => decreaseContrast im y (y + 1) cf) im).BytesPerPixel
      = im.BytesPerPixel := by
  induction rows generalizing im with
  | nil => exact ⟨rfl, rfl, rfl, rfl⟩
  | cons a rest ih =>
    simp only [List.foldl_cons]
    exact ih (decreaseContrast im a (a + 1) cf)

/-- Pointwise description of transforming the pairwise different rows `rows`, one
call of `decreaseContrast` per row, in the order of the list. -/
theorem foldl_rows_getElem? (cf : Nat) (rows : List Nat) (hnd : rows.Nodup)
    (im : SDL_Surface) (hp : im.w * im.BytesPerPixel ≤ im.pitch) (i : Nat) :
    (rows.foldl (fun im y => decreaseContrast im y (y + 1) cf) im).pixels[i]? =
      if ∃ y ∈ rows, inRow im.w im.pitch im.BytesPerPixel y i
      then im.pixels[i]?.map (fun v => contrastByte v cf) else im.pixels[i]? := by
  induction rows generalizing im with
  | nil => simp
  | cons a rest ih =>
    rw [List.nodup_cons] at hnd
    simp only [List.foldl_cons]
    have hstep := decreaseContrast_getElem? im a (a + 1) cf hp i
    have hrec := ih hnd.2 (decreaseContrast im a (a + 1) cf) hp
    have hdims : (decreaseContrast im a (a + 1) cf).w = im.w ∧
        (decreaseContrast im a (a + 1) cf).pitch = im.pitch ∧
        (decreaseContrast im a (a + 1) cf).BytesPerPixel = im.BytesPerPixel :=
      ⟨rfl, rfl, rfl⟩
    rw [hdims.1, hdims.2.1, hdims.2.2] at hrec
    rw [hrec, hstep]
    by_cases h1 : ∃ y ∈ rest, inRow im.w im.pitch im.BytesPerPixel y i
    · have h2 : ¬ inRows im.w im.pitch im.BytesPerPixel a (a + 1) i := by
        rw [inRows_single]
        intro ha
        obtain ⟨y, hy, hyi⟩ := h1
        have := inRow_disjoint hp ha hyi
        rw [this] at hnd
        exact hnd.1 hy
      have h3 : ∃ y ∈ a :: rest, inRow im.w im.pitch im.BytesPerPixel y i := by
        obtain ⟨y, hy, hyi⟩ := h1
        exact ⟨y, List.mem_cons_of_mem _ hy, hyi⟩
      rw [if_pos h1, if_neg h2, if_pos h3]
    · rw [if_neg h1]
      by_cases h2 : inRows im.w im.pitch im.BytesPerPixel a (a + 1) i
      · have h3 : ∃ y ∈ a :: rest, inRow im.w im.pitch im.BytesPerPixel y i :=
          ⟨a, List.mem_cons_self _ _, (inRows_single _ _ _ _ _).1 h2⟩
        rw [if_pos h2, if_pos h3]
      · have h3 : ¬ ∃ y ∈ a :: rest, inRow im.w im.pitch im.BytesPerPixel y i := by
          rintro ⟨y, hy, hyi⟩
          rcases List.mem_cons.1 hy with h | h
          · rw [h] at hyi
            exact h2 ((inRows_single _ _ _ _ _).2 hyi)
          · exact h1 ⟨y, h, hyi⟩
        rw [if_neg h2, if_neg h3]

theorem surface_ext {a b : SDL_Surface} (hw : a.w = b.w) (hh : a.h = b.h)
    (hpitch : a.pitch = b.pitch) (hbpp : a.BytesPerPixel = b.BytesPerPixel)
    (hpx : a.pixels = b.pixels) : a = b := by
  cases a
  cases b
  simp only at hw hh hpitch hbpp hpx
  subst hw hh hpitch hbpp hpx
  rfl

/-- Transforming the same pairwise different rows in two different orders gives the
same surface. -/
theorem foldl_rows_perm (cf : Nat) (rows1 rows2 : List Nat) (hperm : rows1.Perm rows2)
    (hnd : rows2.Nodup) (im : SDL_Surface) (hp : im.w * im.BytesPerPixel ≤ im.pitch) :
    rows1.foldl (fun im y => decreaseContrast im y (y + 1) cf) im =
      rows2.foldl (fun im y => decreaseContrast im y (y + 1) cf) im := by
  have hnd1 : rows1.Nodup := hperm.nodup_iff.2 hnd
  have d1 := foldl_rows_dims cf rows1 im
  have d2 := foldl_rows_dims cf rows2 im
  apply surface_ext
  · rw [d1.1, d2.1]
  · rw [d1.2.1, d2.2.1]
  · rw [d1.2.2.1, d2.2.2.1]
  · rw [d1.2.2.2, d2.2.2.2]
  · apply List.ext_getElem?
    intro i
    rw [foldl_rows_getElem? cf rows1 hnd1 im hp, foldl_rows_getElem? cf rows2 hnd im hp]
    have hiff : (∃ y ∈ rows1, inRow im.w im.pitch im.BytesPerPixel y i) ↔
        (∃ y ∈ rows2, inRow im.w im.pitch im.BytesPerPixel y i) := by
      constructor
      · rintro ⟨y, hy, hyi⟩
        exact ⟨y, hperm.mem_iff.1 hy, hyi⟩
      · rintro ⟨y, hy, hyi⟩
        exact ⟨y, hperm.mem_iff.2 hy, hyi⟩
    simp only [hiff]

/-- In a state of a run where all of the `THREADS ≥ 1` workers have exited, the
transformed rows are the rows `0 .. h - 1` in some order. -/
theorem transformed_perm_of_allExited {cfg : Config} {image : SDL_Surface} {s : Sched}
    (hs : Inv cfg image s) (hN : 1 ≤ cfg.THREADS) (hdone : allExited s.workers = true) :
    List.Perm s.transformed ((List.range image.h).map Int.ofNat) := by
  obtain ⟨_, hlen⟩ := claimed_all_of_allExited hs hN hdone
  obtain ⟨hh, _⟩ := holding_of_allExited hdone
  obtain ⟨⟨_, hq2, _⟩, ⟨_, hw2, _, _, _⟩, _, _, _⟩ := hs
  rw [List.perm_iff_count]
  intro r
  have h1 := hw2 r
  rw [hh, hq2, hlen] at h1
  simp only [List.count_nil, Nat.add_zero] at h1
  exact h1.symm

/-- The image at the end of a completed run is the sequentially transformed image. -/
theorem image_of_allExited {cfg : Config} {image : SDL_Surface} {s : Sched}
    (hs : Inv cfg image s) (hN : 1 ≤ cfg.THREADS)
    (hp : image.w * image.BytesPerPixel ≤ image.pitch)
    (hdone : allExited s.workers = true) : s.image = sequential cfg image := by
  have hperm := transformed_perm_of_allExited hs hN hdone
  have himg : InvI cfg image s := hs.2.2.2.1
  unfold InvI at himg
  have hmap : (s.transformed.map Int.toNat).Perm (List.range image.h) := by
    have := hperm.map Int.toNat
    simpa [List.map_map, Function.comp_def] using this
  have hfold : s.transformed.foldl
      (fun im row => decreaseContrast im row.toNat (row.toNat + 1) (cfg.CONTRAST_FACTOR % 256))
      image =
      (s.transformed.map Int.toNat).foldl
        (fun im y => decreaseContrast im y (y + 1) (cfg.CONTRAST_FACTOR % 256)) image := by
    rw [List.foldl_map]
  rw [himg, hfold]
  unfold sequential
  exact foldl_rows_perm _ _ _ hmap (List.nodup_range _) image hp

/-! ### C8, C9: the progress monitor -/

theorem percent_zero (h : Nat) : percent 0 h = 100 := by
  unfold percent
  simp

theorem percent_antitone (h a b : Nat) (hh : 0 < h) (hab : b ≤ a) :
    percent a h ≤ percent b h := by
  unfold percent
  have hpos : (0 : ℚ) < (h : ℚ) := by exact_mod_cast hh
  have hq : (b : ℚ) ≤ (a : ℚ) := by exact_mod_cast hab
  have hdiv : (b : ℚ) / (h : ℚ) ≤ (a : ℚ) / (h : ℚ) :=
    div_le_div_of_nonneg_right hq (le_of_lt hpos)
  linarith

theorem percent_range (h a : Nat) (hh : 0 < h) (ha : a ≤ h) :
    0 ≤ percent a h ∧ percent a h ≤ 100 := by
  have h1 := percent_antitone h h a hh ha
  have h2 := percent_antitone h a 0 hh (Nat.zero_le a)
  rw [percent_zero h] at h2
  have h3 : percent h h = 0 := by
    unfold percent
    have hpos : (h : ℚ) ≠ 0 := by exact_mod_cast (Nat.pos_iff_ne_zero.1 hh)
    rw [div_self hpos]
    norm_num
  rw [h3] at h1
  exact ⟨h1, h2⟩

theorem step_queue_length (cfg : Config) (s : Sched) (a : Actor) :
    (step cfg s a).rowsToProcess.length = s.rowsToProcess.length ∨
    (step cfg s a).rowsToProcess.length + 1 = s.rowsToProcess.length := by
  cases a with
  | monitor =>
    exact monitorStep_elim s
      (fun t => t.rowsToProcess.length = s.rowsToProcess.length ∨
        t.rowsToProcess.length + 1 = s.rowsToProcess.length)
      (Or.inl rfl) (fun _ => Or.inl rfl) (fun _ _ => Or.inl rfl) (fun _ _ => Or.inl rfl)
      (fun _ _ => Or.inl rfl)
  | driver =>
    exact driverStep_elim s
      (fun t => t.rowsToProcess.length = s.rowsToProcess.length ∨
        t.rowsToProcess.length + 1 = s.rowsToProcess.length)
      (Or.inl rfl) (fun _ _ => Or.inl rfl) (fun _ => Or.inl rfl) (fun _ _ => Or.inl rfl)
  | worker i =>
    refine workerStep_elim cfg s i
      (fun t => t.rowsToProcess.length = s.rowsToProcess.length ∨
        t.rowsToProcess.length + 1 = s.rowsToProcess.length)
      (Or.inl rfl) (fun _ _ _ _ => Or.inl rfl) ?_ ?_ (fun _ _ _ _ => Or.inl rfl)
      (fun _ _ _ _ => Or.inl rfl)
    · intro front rest hq _ _
      right
      rw [hq]
      rfl
    · intro l1 l2 front rest _ hq _ _
      right
      rw [hq]
      rfl

/-- C9: every step of any thread leaves the length of the row queue unchanged or
lowers it by exactly one; and in every reachable state of a run on an image of
height `h > 0` the percentages `100 * (1 - left / h)` of the samples the monitor has
taken, in the order taken, never decrease from one sample to the next and lie in
`[0, 100]`. -/
theorem progress_is_monotone (cfg : Config) (image : SDL_Surface) (done0 : Bool)
    (schedule : List Actor) (hH : 0 < image.h) :
    (∀ (s : Sched) (a : Actor),
      (step cfg s a).rowsToProcess.length = s.rowsToProcess.length ∨
      (step cfg s a).rowsToProcess.length + 1 = s.rowsToProcess.length) ∧
    List.Chain' (fun p q => p ≤ q)
      (((run cfg schedule (init cfg image done0)).rendered ++
          pending (run cfg schedule (init cfg image done0)).monitor).map
        (fun left => percent left image.h)) ∧
    (∀ left ∈ (run cfg schedule (init cfg image done0)).rendered ++
        pending (run cfg schedule (init cfg image done0)).monitor,
      0 ≤ percent left image.h ∧ percent left image.h ≤ 100) := by
  have hm : InvM image.h (run cfg schedule (init cfg image done0)) :=
    run_induction cfg (InvM image.h) (fun s a hs => InvM_step cfg image.h s a hs) schedule _
      (InvM_init cfg image done0)
  generalize run cfg schedule (init cfg image done0) = s at hm ⊢
  obtain ⟨_, h2, h3⟩ := hm
  refine ⟨step_queue_length cfg, ?_, ?_⟩
  · apply List.Pairwise.chain'
    rw [List.pairwise_map]
    have hpw := (List.pairwise_append.1 h3).1
    exact hpw.imp (fun hab => percent_antitone image.h _ _ hH hab)
  · intro left hleft
    exact percent_range image.h left hH (h2 left hleft)

set_option maxRecDepth 100000 in
theorem progress_is_monotone_witness :
    0 < surface1x10.h ∧
    (run pool4cap2 scheduleSamples (init pool4cap2 surface1x10 false)).rendered ++
      pending (run pool4cap2 scheduleSamples (init pool4cap2 surface1x10 false)).monitor
        = [10, 9, 8, 7] ∧
    List.Chain' (fun p q => p ≤ q)
      (((run pool4cap2 scheduleSamples (init pool4cap2 surface1x10 false)).rendered ++
          pending (run pool4cap2 scheduleSamples (init pool4cap2 surface1x10 false)).monitor).map
        (fun left => percent left surface1x10.h)) :=
  ⟨by decide, by decide,
    (progress_is_monotone pool4cap2 surface1x10 false scheduleSamples (by decide)).2.1⟩

theorem SampledEmpty_step (cfg : Config) (base : List Nat) (s : Sched) (a : Actor)
    (hs : SampledEmpty base s) : SampledEmpty base (step cfg s a) := by
  obtain ⟨hrows, n, hren, hmon⟩ := hs
  cases a with
  | driver =>
    exact driverStep_elim s (SampledEmpty base) ⟨hrows, n, hren, hmon⟩
      (fun _ _ => ⟨hrows, n, hren, hmon⟩) (fun _ => ⟨hrows, n, hren, hmon⟩)
      (fun _ _ => ⟨hrows, n, hren, hmon⟩)
  | worker i =>
    refine workerStep_elim cfg s i (SampledEmpty base) ⟨hrows, n, hren, hmon⟩
      (fun _ _ _ _ => ⟨hrows, n, hren, hmon⟩) ?_ ?_ (fun _ _ _ _ => ⟨hrows, n, hren, hmon⟩)
      (fun _ _ _ _ => ⟨hrows, n, hren, hmon⟩)
    · intro front rest hq _ _
      rw [hrows] at hq
      simp at hq
    · intro l1 l2 front rest _ hq _ _
      rw [hrows] at hq
      simp at hq
  | monitor =>
    refine monitorStep_elim s (SampledEmpty base) ⟨hrows, n, hren, hmon⟩ ?_ ?_ ?_ ?_
    · intro _
      refine ⟨hrows, n, hren, Or.inr (Or.inl ?_)⟩
      simp only [hrows, List.length_nil]
    · intro left hm
      rw [hm] at hmon
      have hleft : left = 0 := by
        rcases hmon with h | h | ⟨h | h, _⟩
        · simp at h
        · simpa using h
        · simp at h
        · simp at h
      refine ⟨hrows, n + 1, ?_, Or.inr (Or.inr ⟨Or.inl rfl, Nat.succ_pos n⟩)⟩
      simp only [hren, hleft, List.replicate_succ', List.append_assoc]
    · intro hm _
      rw [hm] at hmon
      have hn : 0 < n := by
        rcases hmon with h | h | ⟨_, h⟩
        · simp at h
        · simp at h
        · exact h
      exact ⟨hrows, n, hren, Or.inr (Or.inr ⟨Or.inr rfl, hn⟩)⟩
    · intro _ _
      exact ⟨hrows, n, hren, Or.inl rfl⟩

/-- C8 as stated fails: in the interleaving `scheduleStaleSample` of a run on one
row with `done` first false, the monitor reads `left = 1` before the row is claimed
and prints it after the main thread has stored `done`; it then exits, and the main
thread finishes, with 0 percent as the only percentage ever printed. -/
theorem monitor_exits_without_100 :
    0 < surface1x1.h ∧
    (run lab3Config scheduleStaleSample (init lab3Config surface1x1 false)).monitor
      = MonitorPc.exited ∧
    (run lab3Config scheduleStaleSample (init lab3Config surface1x1 false)).driver
      = DriverPc.finished ∧
    (run lab3Config scheduleStaleSample (init lab3Config surface1x1 false)).rendered = [1] ∧
    percent 1 surface1x1.h = 0 ∧
    ¬ ∃ left ∈ (run lab3Config scheduleStaleSample (init lab3Config surface1x1 false)).rendered,
        percent left surface1x1.h = 100 := by
  have hr : (run lab3Config scheduleStaleSample (init lab3Config surface1x1 false)).rendered
      = [1] := by decide
  have hp : percent 1 surface1x1.h = 0 := by
    unfold percent surface1x1
    norm_num
  refine ⟨by decide, by decide, by decide, hr, hp, ?_⟩
  rw [hr]
  rintro ⟨left, hleft, h100⟩
  rw [List.mem_singleton] at hleft
  rw [hleft, hp] at h100
  norm_num at h100

/-! ### C10: the exit status -/

/-- C10, the code at the failing input: decoding succeeds and `SDL_SaveBMP`
(`SDL_SaveBMP_RW` in Lab4) fails, and both entry points return 0; their result never
depends on what the save call returned. -/
theorem exit_status_ignores_save_failure :
    saveFailsLab3.SDL_SaveBMP ≠ 0 ∧ Lab3_main saveFailsLab3 = some 0 ∧
    saveFailsLab4.SDL_SaveBMP_RW ≠ 0 ∧ Lab4_increaseContrast saveFailsLab4 = some 0 ∧
    (∀ (env : Lab3Env) (v : Int), Lab3_main { env with SDL_SaveBMP := v } = Lab3_main env) ∧
    (∀ (env : Lab4Env) (v : Int),
      Lab4_increaseContrast { env with SDL_SaveBMP_RW := v } = Lab4_increaseContrast env) := by
  refine ⟨by decide, by decide, by decide, by decide, ?_, ?_⟩
  · intro env v
    rfl
  · intro env v
    rfl

/-! ### A run can complete -/

theorem run_append (cfg : Config) (l1 l2 : List Actor) (s : Sched) :
    run cfg (l1 ++ l2) s = run cfg l2 (run cfg l1 s) := by
  unfold run
  rw [List.foldl_append]

/-- One round of worker 0 (claim, transform, release) on a non-empty queue of row
indices below the cap: the front row is gone, the worker is back at the lock and
the counter is what it was. -/
theorem run_oneRow (cfg : Config) (s : Sched) (ws : List WorkerPc) (front : Int)
    (rest : List Int) (hw : s.workers = WorkerPc.locking :: ws)
    (hq : s.rowsToProcess = front :: rest) (hf : front ≠ -1)
    (hlt : s.currentlyWorking < cfg.MAX_WORKERS) :
    (run cfg (oneRow 0) s).workers = WorkerPc.locking :: ws ∧
    (run cfg (oneRow 0) s).rowsToProcess = rest ∧
    (run cfg (oneRow 0) s).currentlyWorking = s.currentlyWorking := by
  cases s
  simp only at hw hq hlt
  subst hw hq
  simp [run, oneRow, step, workerStep, tryClaim, Claim.outcome, hlt, hf]

theorem run_drainSchedule (cfg : Config) (ws : List WorkerPc) (hcap : 1 ≤ cfg.MAX_WORKERS) :
    ∀ (n : Nat) (s : Sched), s.rowsToProcess.length = n →
      s.workers = WorkerPc.locking :: ws → (∀ r ∈ s.rowsToProcess, r ≠ -1) →
      s.currentlyWorking = 0 →
      (run cfg (drainSchedule n) s).workers = WorkerPc.locking :: ws ∧
      (run cfg (drainSchedule n) s).rowsToProcess = [] ∧
      (run cfg (drainSchedule n) s).currentlyWorking = 0 := by
  intro n
  induction n with
  | zero =>
    intro s hlen hw _ hcw
    exact ⟨hw, List.length_eq_zero.1 hlen, hcw⟩
  | succ n ih =>
    intro s hlen hw hrows hcw
    cases hq : s.rowsToProcess with
    | nil =>
      rw [hq] at hlen
      simp at hlen
    | cons front rest =>
      have hf : front ≠ -1 := hrows front (by rw [hq]; exact List.mem_cons_self _ _)
      obtain ⟨h1, h2, h3⟩ := run_oneRow cfg s ws front rest hw hq hf (by omega)
      unfold drainSchedule
      rw [run_append]
      apply ih
      · rw [h2]
        rw [hq] at hlen
        simpa using hlen
      · exact h1
      · intro r hr
        rw [h2] at hr
        exact hrows r (by rw [hq]; exact List.mem_cons_of_mem _ hr)
      · rw [h3, hcw]

theorem set_replicate_append {α : Type} (j : Nat) (a b c : α) (l : List α) :
    (List.replicate j a ++ b :: l).set j c = List.replicate j a ++ c :: l := by
  induction j with
  | zero => rfl
  | succ j ih => simp [List.replicate_succ, ih]

theorem getElem?_replicate_append {α : Type} (j : Nat) (a b : α) (l : List α) :
    (List.replicate j a ++ b :: l)[j]? = some b := by
  induction j with
  | zero => simp
  | succ j ih => simpa [List.replicate_succ] using ih

theorem workerStep_exit (cfg : Config) (s : Sched) (j : Nat)
    (hw : s.workers[j]? = some WorkerPc.locking) (hq : s.rowsToProcess = []) :
    (workerStep cfg s j).rowsToProcess = [] ∧
    (workerStep cfg s j).workers = s.workers.set j WorkerPc.exited := by
  unfold workerStep
  simp only [hw, hq, tryClaim, Claim.outcome, if_true, and_self]

/-- On an empty queue the workers `j, j + 1, ..., j + m - 1`, each at the lock, leave
their loop one after the other. -/
theorem run_exits (cfg : Config) :
    ∀ (m j : Nat) (s : Sched), s.rowsToProcess = [] →
      s.workers = List.replicate j WorkerPc.exited ++ List.replicate m WorkerPc.locking →
      (run cfg ((List.range' j m).map Actor.worker) s).workers
        = List.replicate (j + m) WorkerPc.exited := by
  intro m
  induction m with
  | zero =>
    intro j s _ hw
    simpa [run] using hw
  | succ m ih =>
    intro j s hq hw
    rw [List.range'_succ, List.map_cons, show Actor.worker j :: List.map Actor.worker
      (List.range' (j + 1) m) = [Actor.worker j] ++ List.map Actor.worker
      (List.range' (j + 1) m) from rfl, run_append]
    have hw2 : s.workers = List.replicate j WorkerPc.exited ++
        WorkerPc.locking :: List.replicate m WorkerPc.locking := by
      rw [hw, List.replicate_succ]
    have hget : s.workers[j]? = some WorkerPc.locking := by
      rw [hw2]
      exact getElem?_replicate_append j _ _ _
    have hexit := workerStep_exit cfg s j hget hq
    have hstep : (run cfg [Actor.worker j] s).rowsToProcess = [] ∧
        (run cfg [Actor.worker j] s).workers =
          List.replicate (j + 1) WorkerPc.exited ++ List.replicate m WorkerPc.locking := by
      refine ⟨hexit.1, ?_⟩
      show (workerStep cfg s j).workers = _
      rw [hexit.2, hw2, set_replicate_append, List.replicate_succ', List.append_assoc]
      rfl
    have := ih (j + 1) _ hstep.1 hstep.2
    rw [this]
    congr 1
    omega

/-- For any image, any number of workers `THREADS ≥ 1` and any cap `MAX_WORKERS ≥ 1`
the interleaving `completingSchedule` brings all workers out of their loop. -/
theorem completingSchedule_completes (cfg : Config) (image : SDL_Surface) (done0 : Bool)
    (hN : 1 ≤ cfg.THREADS) (hcap : 1 ≤ cfg.MAX_WORKERS) :
    allExited (run cfg (completingSchedule image.h cfg.THREADS)
      (init cfg image done0)).workers = true := by
  unfold completingSchedule
  rw [run_append]
  have hw0 : (init cfg image done0).workers =
      WorkerPc.locking :: List.replicate (cfg.THREADS - 1) WorkerPc.locking := by
    have : cfg.THREADS = (cfg.THREADS - 1) + 1 := by omega
    unfold init
    simp only
    rw [this, List.replicate_succ]
    simp
  have hrows : ∀ r ∈ (init cfg image done0).rowsToProcess, r ≠ -1 := by
    intro r hr
    unfold init at hr
    simp only [List.mem_map] at hr
    obtain ⟨k, _, hk⟩ := hr
    rw [← hk]
    simp only [Int.ofNat_eq_coe]
    omega
  have hlen : (init cfg image done0).rowsToProcess.length = image.h := by
    unfold init
    simp
  obtain ⟨h1, h2, _⟩ := run_drainSchedule cfg _ hcap image.h (init cfg image done0) hlen hw0
    hrows rfl
  have hw1 : (run cfg (drainSchedule image.h) (init cfg image done0)).workers =
      List.replicate 0 WorkerPc.exited ++ List.replicate cfg.THREADS WorkerPc.locking := by
    rw [h1]
    have : cfg.THREADS = (cfg.THREADS - 1) + 1 := by omega
    rw [this, List.replicate_succ]
    simp
  have := run_exits cfg cfg.THREADS 0 _ h2 hw1
  rw [this, allExited_iff]
  intro w hwm
  exact (List.mem_replicate.1 hwm).2

/-! ### C7: the terminal state -/

/-- C7: for any image height, any number `THREADS ≥ 1` of workers and any cap
`MAX_WORKERS ≥ 1`, some interleaving brings all workers out of their loop; and in
every reachable state in which all workers have left their loop the queue is empty,
`currentlyWorking` is 0, and the transform was invoked exactly `h` times, once for
each row index `0 .. h - 1`. -/
theorem terminal_state (cfg : Config) (image : SDL_Surface) (done0 : Bool)
    (hN : 1 ≤ cfg.THREADS) (hcap : 1 ≤ cfg.MAX_WORKERS) :
    (∃ schedule, allExited (run cfg schedule (init cfg image done0)).workers = true) ∧
    ∀ schedule, allExited (run cfg schedule (init cfg image done0)).workers = true →
      (run cfg schedule (init cfg image done0)).rowsToProcess = [] ∧
      (run cfg schedule (init cfg image done0)).currentlyWorking = 0 ∧
      (run cfg schedule (init cfg image done0)).transformed.length = image.h ∧
      List.Perm (run cfg schedule (init cfg image done0)).transformed
        ((List.range image.h).map Int.ofNat) := by
  refine ⟨⟨completingSchedule image.h cfg.THREADS,
    completingSchedule_completes cfg image done0 hN hcap⟩, ?_⟩
  intro schedule hdone
  have hinv := Inv_run cfg image done0 (by omega) schedule
  generalize run cfg schedule (init cfg image done0) = s at hinv hdone ⊢
  obtain ⟨hempty, _⟩ := claimed_all_of_allExited hinv hN hdone
  obtain ⟨hh, hf⟩ := holding_of_allExited hdone
  have hperm := transformed_perm_of_allExited hinv hN hdone
  obtain ⟨_, ⟨_, _, _, hw4, _⟩, _, _, _⟩ := hinv
  refine ⟨hempty, ?_, ?_, hperm⟩
  · rw [hw4, hh, hf]
    rfl
  · have := hperm.length_eq
    simpa using this

set_option maxRecDepth 100000 in
theorem terminal_state_witness :
    surface1x10.h = 10 ∧ pool4cap2.THREADS = 4 ∧ pool4cap2.MAX_WORKERS = 2 ∧
    allExited (run pool4cap2 schedule1x10 (init pool4cap2 surface1x10 false)).workers = true ∧
    ((run pool4cap2 schedule1x10 (init pool4cap2 surface1x10 false)).rowsToProcess = [] ∧
    (run pool4cap2 schedule1x10 (init pool4cap2 surface1x10 false)).currentlyWorking = 0 ∧
    (run pool4cap2 schedule1x10 (init pool4cap2 surface1x10 false)).transformed.length
      = surface1x10.h ∧
    List.Perm (run pool4cap2 schedule1x10 (init pool4cap2 surface1x10 false)).transformed
      ((List.range surface1x10.h).map Int.ofNat)) :=
  ⟨rfl, rfl, rfl, rfl,
    (terminal_state pool4cap2 surface1x10 false (by decide) (by decide)).2 schedule1x10 rfl⟩

/-! ### C6: the final image -/

/-- Transforming the rows `0 .. h - 1` one call per row gives the same surface as the
single call `decreaseContrast(image, 0, image->h, contrastFactor)` (METHOD 1 of
`Lab2.cpp`). -/
theorem sequential_eq_single_call (cfg : Config) (image : SDL_Surface)
    (hp : image.w * image.BytesPerPixel ≤ image.pitch) :
    sequential cfg image = decreaseContrast image 0 image.h (cfg.CONTRAST_FACTOR % 256) := by
  unfold sequential
  have d1 := foldl_rows_dims (cfg.CONTRAST_FACTOR % 256) (List.range image.h) image
  apply surface_ext
  · exact d1.1
  · exact d1.2.1
  · exact d1.2.2.1
  · exact d1.2.2.2
  · apply List.ext_getElem?
    intro i
    rw [foldl_rows_getElem? _ _ (List.nodup_range _) image hp,
      decreaseContrast_getElem? image 0 image.h _ hp]
    have hiff : (∃ y ∈ List.range image.h, inRow image.w image.pitch image.BytesPerPixel y i) ↔
        inRows image.w image.pitch image.BytesPerPixel 0 image.h i := by
      constructor
      · rintro ⟨y, hy, hyi⟩
        exact ⟨y, List.mem_range.1 hy, Nat.zero_le y, hyi⟩
      · rintro ⟨y, hy, _, hyi⟩
        exact ⟨y, List.mem_range.2 hy, hyi⟩
    simp only [hiff]

/-- C6: on a surface with `w * BytesPerPixel ≤ pitch`, for any numbers of workers
`≥ 1`, any caps `≥ 1` and any interleavings, the image at the end of a completed
run is the image obtained by transforming the rows `0 .. h - 1` once each, one after
the other: every byte of the pixel data of a row has gone through `contrastByte`
once and every other byte is as it was. So two completed runs with different pool
sizes and caps (and the same contrast factor) end with identical images. -/
theorem final_image_is_sequential (cfg1 cfg2 : Config) (image : SDL_Surface)
    (done1 done2 : Bool) (schedule1 schedule2 : List Actor)
    (hpitch : image.w * image.BytesPerPixel ≤ image.pitch)
    (hN1 : 1 ≤ cfg1.THREADS) (hcap1 : 1 ≤ cfg1.MAX_WORKERS)
    (hN2 : 1 ≤ cfg2.THREADS) (hcap2 : 1 ≤ cfg2.MAX_WORKERS)
    (hcf : cfg1.CONTRAST_FACTOR = cfg2.CONTRAST_FACTOR)
    (hdone1 : allExited (run cfg1 schedule1 (init cfg1 image done1)).workers = true)
    (hdone2 : allExited (run cfg2 schedule2 (init cfg2 image done2)).workers = true) :
    (run cfg1 schedule1 (init cfg1 image done1)).image = sequential cfg1 image ∧
    (∀ i, (run cfg1 schedule1 (init cfg1 image done1)).image.pixels[i]? =
      if inRows image.w image.pitch image.BytesPerPixel 0 image.h i
      then image.pixels[i]?.map (fun v => contrastByte v (cfg1.CONTRAST_FACTOR % 256))
      else image.pixels[i]?) ∧
    (run cfg1 schedule1 (init cfg1 image done1)).image =
      (run cfg2 schedule2 (init cfg2 image done2)).image := by
  have h1 := image_of_allExited (Inv_run cfg1 image done1 (by omega) schedule1) hN1 hpitch hdone1
  have h2 := image_of_allExited (Inv_run cfg2 image done2 (by omega) schedule2) hN2 hpitch hdone2
  refine ⟨h1, ?_, ?_⟩
  · intro i
    rw [h1, sequential_eq_single_call cfg1 image hpitch,
      decreaseContrast_getElem? image 0 image.h _ hpitch]
  · rw [h1, h2]
    unfold sequential
    rw [hcf]

set_option maxRecDepth 100000 in
theorem final_image_is_sequential_witness :
    surface2x5.h = 5 ∧
    lab3Config.THREADS = 1 ∧ lab3Config.MAX_WORKERS = 12 ∧
    pool5cap1.THREADS = 5 ∧ pool5cap1.MAX_WORKERS = 1 ∧
    surface2x5.w * surface2x5.BytesPerPixel ≤ surface2x5.pitch ∧
    allExited (run lab3Config schedulePool1 (init lab3Config surface2x5 false)).workers = true ∧
    allExited (run pool5cap1 schedulePool5 (init pool5cap1 surface2x5 false)).workers = true ∧
    (run lab3Config schedulePool1 (init lab3Config surface2x5 false)).image
        = sequential lab3Config surface2x5 ∧
    (run lab3Config schedulePool1 (init lab3Config surface2x5 false)).image =
        (run pool5cap1 schedulePool5 (init pool5cap1 surface2x5 false)).image :=
  ⟨rfl, rfl, rfl, rfl, rfl, by decide, rfl, rfl,
    (final_image_is_sequential lab3Config pool5cap1 surface2x5 false false
      schedulePool1 schedulePool5 (by decide) (by decide) (by decide) (by decide) (by decide)
      rfl rfl rfl).1,
    (final_image_is_sequential lab3Config pool5cap1 surface2x5 false false
      schedulePool1 schedulePool5 (by decide) (by decide) (by decide) (by decide) (by decide)
      rfl rfl rfl).2.2⟩

/-! ### C11: the writes of the row transform -/

theorem mem_storeOffsets (image : SDL_Surface) (startY endY i : Nat) :
    i ∈ storeOffsets image startY endY ↔
      ∃ y x c, startY ≤ y ∧ y < endY ∧ x < image.w ∧ c < image.BytesPerPixel ∧
        i = y * image.pitch + x * image.BytesPerPixel + c := by
  unfold storeOffsets
  simp only [List.mem_flatMap, List.mem_map, List.mem_range, List.mem_range'_1]
  constructor
  · rintro ⟨y, ⟨hy1, hy2⟩, x, hx, c, hc, rfl⟩
    exact ⟨y, x, c, hy1, by omega, hx, hc, rfl⟩
  · rintro ⟨y, x, c, hy1, hy2, hx, hc, rfl⟩
    exact ⟨y, ⟨hy1, by omega⟩, x, hx, c, hc, rfl⟩

theorem inRows_iff (w pitch bpp startY endY i : Nat) :
    inRows w pitch bpp startY endY i ↔
      ∃ y k, startY ≤ y ∧ y < endY ∧ k < w * bpp ∧ i = y * pitch + k := by
  unfold inRows inRow
  constructor
  · rintro ⟨y, hy2, hy1, h1, h2⟩
    exact ⟨y, i - y * pitch, hy1, hy2, by omega, by omega⟩
  · rintro ⟨y, k, hy1, hy2, hk, rfl⟩
    exact ⟨y, hy2, hy1, by omega, by omega⟩

theorem mem_storeOffsets_iff_inRows (image : SDL_Surface) (startY endY i : Nat) :
    i ∈ storeOffsets image startY endY ↔
      inRows image.w image.pitch image.BytesPerPixel startY endY i := by
  rw [mem_storeOffsets]
  constructor
  · rintro ⟨y, x, c, hy1, hy2, hx, hc, rfl⟩
    exact ⟨y, hy2, hy1, pixel_inRow hx hc⟩
  · rintro ⟨y, hy2, hy1, h1, h2⟩
    have hbpp : 0 < image.BytesPerPixel := by
      rcases Nat.eq_zero_or_pos image.BytesPerPixel with h0 | h0
      · rw [h0, Nat.mul_zero] at h2
        omega
      · exact h0
    refine ⟨y, (i - y * image.pitch) / image.BytesPerPixel,
      (i - y * image.pitch) % image.BytesPerPixel, hy1, hy2, ?_, Nat.mod_lt _ hbpp, ?_⟩
    · rw [Nat.div_lt_iff_lt_mul hbpp]
      omega
    · have := Nat.div_add_mod (i - y * image.pitch) image.BytesPerPixel
      rw [Nat.mul_comm] at this
      omega

/-- An offset `y * pitch + k` with `k < pitch` that is in another row than
`startY .. endY - 1` or in the padding (`k ≥ w * BytesPerPixel`) is not in the pixel
data of the rows `startY .. endY - 1`. -/
theorem not_inRows_of_other {w pitch bpp startY endY y k : Nat} (hp : w * bpp ≤ pitch)
    (hk : k < pitch) (hother : y < startY ∨ endY ≤ y ∨ w * bpp ≤ k) :
    ¬ inRows w pitch bpp startY endY (y * pitch + k) := by
  rintro ⟨y2, hy2, hy1, h1, h2⟩
  have hyy : y2 = y := by
    rcases Nat.lt_trichotomy y2 y with h | h | h
    · have := Nat.mul_le_mul_right pitch (Nat.succ_le_of_lt h)
      rw [Nat.succ_mul] at this
      omega
    · exact h
    · have := Nat.mul_le_mul_right pitch (Nat.succ_le_of_lt h)
      rw [Nat.succ_mul] at this
      omega
  subst hyy
  omega

theorem decreaseContrast_length (image : SDL_Surface) (startY endY cf : Nat)
    (hp : image.w * image.BytesPerPixel ≤ image.pitch) :
    (decreaseContrast image startY endY cf).pixels.length = image.pixels.length := by
  have hchar := decreaseContrast_getElem? image startY endY cf hp
  have hnone : ∀ i : Nat, ((decreaseContrast image startY endY cf).pixels[i]? = none) ↔
      (image.pixels[i]? = none) := by
    intro i
    rw [hchar i]
    split <;> simp
  have h1 := (hnone image.pixels.length).2 (List.getElem?_eq_none (Nat.le_refl _))
  have h2 := (hnone (decreaseContrast image startY endY cf).pixels.length).1
    (List.getElem?_eq_none (Nat.le_refl _))
  rw [List.getElem?_eq_none_iff] at h1 h2
  omega

/-- C11: on a surface with `w * BytesPerPixel ≤ pitch`, the call
`decreaseContrast(image, startY, endY, c)` stores only at offsets `y * pitch + k`
with `startY ≤ y < endY` and `k < w * BytesPerPixel`; the buffer keeps its length and
every byte at any other offset is unchanged, in particular every byte of another
row and every padding byte (`w * BytesPerPixel ≤ k < pitch`); and the calls for two
different rows store at no common offset. -/
theorem decreaseContrast_writes_own_rows_only (image : SDL_Surface)
    (startY endY contrastFactor : Nat)
    (hpitch : image.w * image.BytesPerPixel ≤ image.pitch) :
    (∀ i ∈ storeOffsets image startY endY,
      ∃ y k, startY ≤ y ∧ y < endY ∧ k < image.w * image.BytesPerPixel ∧
        i = y * image.pitch + k) ∧
    (decreaseContrast image startY endY contrastFactor).pixels.length
      = image.pixels.length ∧
    (∀ i, (¬ ∃ y k, startY ≤ y ∧ y < endY ∧ k < image.w * image.BytesPerPixel ∧
        i = y * image.pitch + k) →
      (decreaseContrast image startY endY contrastFactor).pixels[i]? = image.pixels[i]?) ∧
    (∀ y k, k < image.pitch → (y < startY ∨ endY ≤ y ∨ image.w * image.BytesPerPixel ≤ k) →
      (decreaseContrast image startY endY contrastFactor).pixels[y * image.pitch + k]?
        = image.pixels[y * image.pitch + k]?) ∧
    (∀ y1 y2, y1 ≠ y2 → ∀ i, i ∈ storeOffsets image y1 (y1 + 1) →
      i ∉ storeOffsets image y2 (y2 + 1)) := by
  refine ⟨?_, decreaseContrast_length image startY endY contrastFactor hpitch, ?_, ?_, ?_⟩
  · intro i hi
    rw [mem_storeOffsets_iff_inRows] at hi
    exact (inRows_iff _ _ _ _ _ _).1 hi
  · intro i hi
    rw [← inRows_iff] at hi
    rw [decreaseContrast_getElem? image startY endY contrastFactor hpitch, if_neg hi]
  · intro y k hk hother
    rw [decreaseContrast_getElem? image startY endY contrastFactor hpitch,
      if_neg (not_inRows_of_other hpitch hk hother)]
  · intro y1 y2 hne i h1 h2
    rw [mem_storeOffsets_iff_inRows, inRows_single] at h1 h2
    exact hne (inRow_disjoint hpitch h1 h2)

theorem decreaseContrast_writes_own_rows_only_witness :
    surface2x2.w * surface2x2.BytesPerPixel ≤ surface2x2.pitch ∧
    storeOffsets surface2x2 1 2 = [3, 4] ∧
    (decreaseContrast surface2x2 1 2 128).pixels = [0, 128, 7, 127, 0, 9] ∧
    (∀ y k, k < surface2x2.pitch →
      (y < 1 ∨ 2 ≤ y ∨ surface2x2.w * surface2x2.BytesPerPixel ≤ k) →
      (decreaseContrast surface2x2 1 2 128).pixels[y * surface2x2.pitch + k]?
        = surface2x2.pixels[y * surface2x2.pitch + k]?) :=
  ⟨by decide, by decide, by decide,
    (decreaseContrast_writes_own_rows_only surface2x2 1 2 128 (by decide)).2.2.2.1⟩

/-! ### C12: the static partition of METHOD 3 -/

theorem mem_method3Rows (h T i r : Nat) :
    r ∈ method3Rows h T i ↔
      ∃ j, j < (if h % T > i then h / T + 1 else h / T) ∧ r = j * T + i := by
  unfold method3Rows
  simp only [List.mem_map, List.mem_range]
  constructor
  · rintro ⟨j, hj, rfl⟩
    exact ⟨j, hj, rfl⟩
  · rintro ⟨j, hj, rfl⟩
    exact ⟨j, hj, rfl⟩

/-- A row `j * T + i` that thread `i < T` visits is a row of the image. -/
theorem method3_row_lt (h T i j : Nat) (hi : i < T)
    (hj : j < (if h % T > i then h / T + 1 else h / T)) : j * T + i < h := by
  have hdm := Nat.div_add_mod h T
  rw [Nat.mul_comm] at hdm
  by_cases hc : h % T > i
  · rw [if_pos hc] at hj
    have := Nat.mul_le_mul_right T (Nat.le_of_lt_succ hj)
    omega
  · rw [if_neg hc] at hj
    have := Nat.mul_le_mul_right T (Nat.succ_le_of_lt hj)
    rw [Nat.succ_mul] at this
    omega

/-- Every row of the image is visited by thread `r % T`, as its visit number `r / T`. -/
theorem method3_row_covered (h T r : Nat) (hr : r < h) :
    r / T < (if h % T > r % T then h / T + 1 else h / T) := by
  have hdm := Nat.div_add_mod h T
  have hrm := Nat.div_add_mod r T
  rw [Nat.mul_comm] at hdm hrm
  have hle : r / T ≤ h / T := Nat.div_le_div_right (Nat.le_of_lt hr)
  by_cases hc : h % T > r % T
  · rw [if_pos hc]
    omega
  · rw [if_neg hc]
    rcases Nat.lt_or_ge (r / T) (h / T) with hlt | hge
    · exact hlt
    · have heq : r / T = h / T := Nat.le_antisymm hle hge
      rw [heq] at hrm
      omega

theorem method3_decompose {T i1 j1 i2 j2 : Nat} (h1 : i1 < T) (h2 : i2 < T)
    (heq : j1 * T + i1 = j2 * T + i2) : i1 = i2 ∧ j1 = j2 := by
  have hm1 : (j1 * T + i1) % T = i1 := by
    rw [Nat.add_comm, Nat.add_mul_mod_self_right, Nat.mod_eq_of_lt h1]
  have hm2 : (j2 * T + i2) % T = i2 := by
    rw [Nat.add_comm, Nat.add_mul_mod_self_right, Nat.mod_eq_of_lt h2]
  have hi : i1 = i2 := by
    rw [← hm1, ← hm2, heq]
  subst hi
  have hT : 0 < T := by omega
  have hmul : j1 * T = j2 * T := by omega
  exact ⟨rfl, Nat.eq_of_mul_eq_mul_right hT hmul⟩

theorem mem_method3Threads_flatten (h T r : Nat) :
    r ∈ (method3Threads h T).flatten ↔ ∃ i, i < T ∧ r ∈ method3Rows h T i := by
  unfold method3Threads
  simp only [List.mem_flatten, List.mem_map, List.mem_range]
  constructor
  · rintro ⟨l, ⟨i, hi, rfl⟩, hr⟩
    exact ⟨i, hi, hr⟩
  · rintro ⟨i, hi, hr⟩
    exact ⟨_, ⟨i, hi, rfl⟩, hr⟩

theorem method3Rows_nodup (h T i : Nat) (hT : 0 < T) : (method3Rows h T i).Nodup := by
  unfold method3Rows
  apply List.Nodup.map _ (List.nodup_range _)
  intro j1 j2 heq
  simp only at heq
  have : j1 * T = j2 * T := by omega
  exact Nat.eq_of_mul_eq_mul_right hT this

theorem method3Threads_flatten_nodup (h T : Nat) (hT : 0 < T) :
    (method3Threads h T).flatten.Nodup := by
  unfold method3Threads
  rw [List.nodup_flatten]
  constructor
  · intro l hl
    simp only [List.mem_map, List.mem_range] at hl
    obtain ⟨i, _, rfl⟩ := hl
    exact method3Rows_nodup h T i hT
  · rw [List.pairwise_map]
    apply List.Pairwise.imp_of_mem _ (List.nodup_range T)
    intro i1 i2 hi1 hi2 hne
    rw [List.mem_range] at hi1 hi2
    intro r hr1 hr2
    rw [mem_method3Rows] at hr1 hr2
    obtain ⟨j1, _, e1⟩ := hr1
    obtain ⟨j2, _, e2⟩ := hr2
    exact hne (method3_decompose hi1 hi2 (e1.symm.trans e2)).1

/-- Transforming the rows `0 .. h - 1` one call per row, for any contrast factor,
gives the same surface as the single call over all rows. -/
theorem foldl_range_eq_single_call (cf : Nat) (image : SDL_Surface)
    (hp : image.w * image.BytesPerPixel ≤ image.pitch) :
    (List.range image.h).foldl (fun im y => decreaseContrast im y (y + 1) cf) image =
      decreaseContrast image 0 image.h cf := by
  have d1 := foldl_rows_dims cf (List.range image.h) image
  apply surface_ext
  · exact d1.1
  · exact d1.2.1
  · exact d1.2.2.1
  · exact d1.2.2.2
  · apply List.ext_getElem?
    intro i
    rw [foldl_rows_getElem? _ _ (List.nodup_range _) image hp,
      decreaseContrast_getElem? image 0 image.h _ hp]
    have hiff : (∃ y ∈ List.range image.h, inRow image.w image.pitch image.BytesPerPixel y i) ↔
        inRows image.w image.pitch image.BytesPerPixel 0 image.h i := by
      constructor
      · rintro ⟨y, hy, hyi⟩
        exact ⟨y, List.mem_range.1 hy, Nat.zero_le y, hyi⟩
      · rintro ⟨y, hy, _, hyi⟩
        exact ⟨y, List.mem_range.2 hy, hyi⟩
    simp only [hiff]

/-- C12: for every image (of any height `h`) and every `THREADS ≥ 1`, thread `i` of
METHOD 3 visits the rows `j * THREADS + i` for `j` below
`h / THREADS + 1` if `h % THREADS > i` and below `h / THREADS` otherwise; these rows
all lie in `[0, h)`, no row is visited twice by one thread or by two threads, and
every row of `[0, h)` is visited: the visited rows of all threads together are a
rearrangement of `0, ..., h - 1`, each occurring once. So on a surface with
`w * BytesPerPixel ≤ pitch`, transforming the visited rows in whatever order the
threads get to them gives the image of the single call over all rows. -/
theorem method3_partition (image : SDL_Surface) (THREADS : Nat) (hT : 1 ≤ THREADS) :
    (∀ i, method3Rows image.h THREADS i =
      (List.range (if image.h % THREADS > i then image.h / THREADS + 1
        else image.h / THREADS)).map (fun j => j * THREADS + i)) ∧
    (∀ i, i < THREADS → ∀ r ∈ method3Rows image.h THREADS i, r < image.h) ∧
    (∀ i, (method3Rows image.h THREADS i).Nodup) ∧
    (∀ i1 i2, i1 < THREADS → i2 < THREADS → i1 ≠ i2 →
      ∀ r ∈ method3Rows image.h THREADS i1, r ∉ method3Rows image.h THREADS i2) ∧
    (method3Threads image.h THREADS).flatten.Nodup ∧
    (∀ r, r ∈ (method3Threads image.h THREADS).flatten ↔ r < image.h) ∧
    (∀ r, r < image.h → (method3Threads image.h THREADS).flatten.count r = 1) ∧
    List.Perm (method3Threads image.h THREADS).flatten (List.range image.h) ∧
    (image.w * image.BytesPerPixel ≤ image.pitch → ∀ (order : List Nat) (cf : Nat),
      List.Perm order (method3Threads image.h THREADS).flatten →
      order.foldl (fun im y => decreaseContrast im y (y + 1) cf) image =
        decreaseContrast image 0 image.h cf) := by
  have hpos : 0 < THREADS := hT
  have hnd := method3Threads_flatten_nodup image.h THREADS hpos
  have hlt : ∀ i, i < THREADS → ∀ r ∈ method3Rows image.h THREADS i, r < image.h := by
    intro i hi r hr
    rw [mem_method3Rows] at hr
    obtain ⟨j, hj, rfl⟩ := hr
    exact method3_row_lt image.h THREADS i j hi hj
  have hmem : ∀ r, r ∈ (method3Threads image.h THREADS).flatten ↔ r < image.h := by
    intro r
    rw [mem_method3Threads_flatten]
    constructor
    · rintro ⟨i, hi, hr⟩
      exact hlt i hi r hr
    · intro hr
      refine ⟨r % THREADS, Nat.mod_lt _ hpos, ?_⟩
      rw [mem_method3Rows]
      refine ⟨r / THREADS, method3_row_covered image.h THREADS r hr, ?_⟩
      have := Nat.div_add_mod r THREADS
      rw [Nat.mul_comm] at this
      omega
  have hperm : List.Perm (method3Threads image.h THREADS).flatten (List.range image.h) := by
    rw [List.perm_ext_iff_of_nodup hnd (List.nodup_range _)]
    intro r
    rw [hmem r, List.mem_range]
  refine ⟨fun _ => rfl, hlt, fun i => method3Rows_nodup image.h THREADS i hpos, ?_, hnd, hmem,
    ?_, hperm, ?_⟩
  · intro i1 i2 hi1 hi2 hne r hr1 hr2
    rw [mem_method3Rows] at hr1 hr2
    obtain ⟨j1, _, e1⟩ := hr1
    obtain ⟨j2, _, e2⟩ := hr2
    exact hne (method3_decompose hi1 hi2 (e1.symm.trans e2)).1
  · intro r hr
    exact List.count_eq_one_of_mem hnd ((hmem r).2 hr)
  · intro hp order cf horder
    rw [← foldl_range_eq_single_call cf image hp]
    exact foldl_rows_perm cf order (List.range image.h) (horder.trans hperm)
      (List.nodup_range _) image hp

theorem method3_partition_witness :
    1 ≤ 3 ∧
    method3Threads surface2x5.h 3 = [[0, 3], [1, 4], [2]] ∧
    method3Threads 7 3 = [[0, 3, 6], [1, 4], [2, 5]] ∧
    List.Perm (method3Threads surface2x5.h 3).flatten (List.range surface2x5.h) :=
  ⟨by decide, by decide, by decide,
    (method3_partition surface2x5 3 (by decide)).2.2.2.2.2.2.2.1⟩


/-! ### C8, amended: samples on an empty queue -/

theorem percent_eq_100_iff (h left : Nat) (hh : 0 < h) :
    percent left h = 100 ↔ left = 0 := by
  constructor
  · intro hp
    unfold percent at hp
    have hpos : (h : ℚ) ≠ 0 := by exact_mod_cast (Nat.pos_iff_ne_zero.1 hh)
    have hdiv : (left : ℚ) / (h : ℚ) = 0 := by linarith
    rcases div_eq_zero_iff.1 hdiv with h0 | h0
    · exact_mod_cast h0
    · exact absurd h0 hpos
  · intro hl
    rw [hl]
    exact percent_zero h

/-- A value of `left` that the monitor has read (printed or not yet printed) after a
step was read before the step, or it is the queue length the step has just read. -/
theorem step_samples (cfg : Config) (s : Sched) (a : Actor) :
    ∀ x ∈ (step cfg s a).rendered ++ pending (step cfg s a).monitor,
      x ∈ s.rendered ++ pending s.monitor ∨
      (s.monitor = MonitorPc.sampling ∧ s.rowsToProcess.length = x) := by
  cases a with
  | driver =>
    exact driverStep_elim s
      (fun t => ∀ x ∈ t.rendered ++ pending t.monitor,
        x ∈ s.rendered ++ pending s.monitor ∨
        (s.monitor = MonitorPc.sampling ∧ s.rowsToProcess.length = x))
      (fun _ hx => Or.inl hx) (fun _ _ _ hx => Or.inl hx) (fun _ _ hx => Or.inl hx)
      (fun _ _ _ hx => Or.inl hx)
  | worker i =>
    exact workerStep_elim cfg s i
      (fun t => ∀ x ∈ t.rendered ++ pending t.monitor,
        x ∈ s.rendered ++ pending s.monitor ∨
        (s.monitor = MonitorPc.sampling ∧ s.rowsToProcess.length = x))
      (fun _ hx => Or.inl hx) (fun _ _ _ _ _ hx => Or.inl hx)
      (fun _ _ _ _ _ _ hx => Or.inl hx) (fun _ _ _ _ _ _ _ _ _ hx => Or.inl hx)
      (fun _ _ _ _ _ hx => Or.inl hx) (fun _ _ _ _ _ hx => Or.inl hx)
  | monitor =>
    refine monitorStep_elim s
      (fun t => ∀ x ∈ t.rendered ++ pending t.monitor,
        x ∈ s.rendered ++ pending s.monitor ∨
        (s.monitor = MonitorPc.sampling ∧ s.rowsToProcess.length = x))
      (fun _ hx => Or.inl hx) ?_ ?_ ?_ ?_
    · intro hm x hx
      simp only [pending, List.mem_append, List.mem_singleton] at hx
      rcases hx with hx | hx
      · exact Or.inl (List.mem_append_left _ hx)
      · exact Or.inr ⟨hm, hx.symm⟩
    · intro left hm x hx
      left
      rw [hm]
      simpa [pending] using hx
    · intro _ _ x hx
      left
      simp only [pending, List.append_nil] at hx
      exact List.mem_append_left _ hx
    · intro _ _ x hx
      left
      simp only [pending, List.append_nil] at hx
      exact List.mem_append_left _ hx

/-- Every value of `left` read during a run from `s0` is the queue length of a state
of that run in which the monitor was about to read it. -/
theorem samples_have_origin (cfg : Config) :
    ∀ (schedule : List Actor) (s0 : Sched),
      ∀ x ∈ (run cfg schedule s0).rendered ++ pending (run cfg schedule s0).monitor,
        x ∈ s0.rendered ++ pending s0.monitor ∨
        ∃ l1 l2, schedule = l1 ++ l2 ∧ (run cfg l1 s0).monitor = MonitorPc.sampling ∧
          (run cfg l1 s0).rowsToProcess.length = x := by
  intro schedule
  induction schedule with
  | nil =>
    intro s0 x hx
    exact Or.inl hx
  | cons a rest ih =>
    intro s0 x hx
    have hx2 : x ∈ (run cfg rest (step cfg s0 a)).rendered ++
        pending (run cfg rest (step cfg s0 a)).monitor := hx
    rcases ih (step cfg s0 a) x hx2 with h | ⟨l1, l2, hl, hm, hlen⟩
    · rcases step_samples cfg s0 a x h with h0 | ⟨hm, hlen⟩
      · exact Or.inl h0
      · exact Or.inr ⟨[], a :: rest, rfl, hm, hlen⟩
    · refine Or.inr ⟨a :: l1, l2, ?_, hm, hlen⟩
      rw [hl]
      rfl

/-- C8, amended: in a run on an image of height `h > 0`, under every interleaving:
if the monitor is about to read the queue length in a state in which the queue is
empty (the workers joined or not), then whenever the monitor has exited later on, it
has printed `left = 0`, that is exactly 100 percent, at least once in between, and
nothing else. Such a sample is the only way to 100: a monitor that has printed 100
has read the queue length in a state of the run with an empty queue. Every state in
which the main thread is past the joins of `THREADS ≥ 1` workers has an empty
queue, so every sample after the joins is such a sample. -/
theorem sample_on_empty_queue_renders_100 (cfg : Config) (image : SDL_Surface)
    (done0 : Bool) (hH : 0 < image.h) :
    (∀ schedule1 schedule2 : List Actor,
      (run cfg schedule1 (init cfg image done0)).rowsToProcess = [] →
      (run cfg schedule1 (init cfg image done0)).monitor = MonitorPc.sampling →
      (run cfg schedule2 (run cfg schedule1 (init cfg image done0))).monitor
        = MonitorPc.exited →
      (∃ n, 0 < n ∧
        (run cfg schedule2 (run cfg schedule1 (init cfg image done0))).rendered =
          (run cfg schedule1 (init cfg image done0)).rendered ++ List.replicate n 0) ∧
      (∃ left ∈ (run cfg schedule2 (run cfg schedule1 (init cfg image done0))).rendered,
        percent left image.h = 100)) ∧
    (∀ (schedule : List Actor) (left : Nat),
      left ∈ (run cfg schedule (init cfg image done0)).rendered →
      percent left image.h = 100 →
      ∃ l1 l2, schedule = l1 ++ l2 ∧
        (run cfg l1 (init cfg image done0)).rowsToProcess = [] ∧
        (run cfg l1 (init cfg image done0)).monitor = MonitorPc.sampling) ∧
    (∀ schedule : List Actor, 1 ≤ cfg.THREADS → 1 ≤ cfg.MAX_WORKERS →
      (run cfg schedule (init cfg image done0)).driver ≠ DriverPc.joiningWorkers →
      (run cfg schedule (init cfg image done0)).rowsToProcess = []) := by
  refine ⟨?_, ?_, ?_⟩
  · intro schedule1 schedule2 hempty hsampling hexited
    generalize run cfg schedule1 (init cfg image done0) = s1 at hempty hsampling hexited ⊢
    have h0 : SampledEmpty s1.rendered s1 := ⟨hempty, 0, by simp, Or.inl hsampling⟩
    have h2 : SampledEmpty s1.rendered (run cfg schedule2 s1) :=
      run_induction cfg (SampledEmpty s1.rendered)
        (fun s a hs => SampledEmpty_step cfg s1.rendered s a hs) schedule2 s1 h0
    obtain ⟨_, n, hren, hmon⟩ := h2
    have hn : 0 < n := by
      rw [hexited] at hmon
      rcases hmon with h | h | ⟨_, h⟩
      · simp at h
      · simp at h
      · exact h
    refine ⟨⟨n, hn, hren⟩, 0, ?_, percent_zero image.h⟩
    rw [hren]
    apply List.mem_append_right
    rw [List.mem_replicate]
    exact ⟨by omega, rfl⟩
  · intro schedule left hleft h100
    have hzero : left = 0 := (percent_eq_100_iff image.h left hH).1 h100
    have hmem : left ∈ (run cfg schedule (init cfg image done0)).rendered ++
        pending (run cfg schedule (init cfg image done0)).monitor :=
      List.mem_append_left _ hleft
    rcases samples_have_origin cfg schedule (init cfg image done0) left hmem with
      h | ⟨l1, l2, hl, hm, hlen⟩
    · simp [init, pending] at h
    · refine ⟨l1, l2, hl, ?_, hm⟩
      rw [hzero] at hlen
      exact List.length_eq_zero.1 hlen
  · intro schedule hN hcap hjoined
    have hinv := Inv_run cfg image done0 (by omega) schedule
    have hall := hinv.2.2.1.2 hjoined
    exact (claimed_all_of_allExited hinv hN hall).1

theorem sample_on_empty_queue_renders_100_witness :
    0 < surface1x1.h ∧
    (run lab3Config scheduleClaimFirst (init lab3Config surface1x1 false)).rowsToProcess
      = [] ∧
    (run lab3Config scheduleClaimFirst (init lab3Config surface1x1 false)).driver
      = DriverPc.joiningWorkers ∧
    (run lab3Config scheduleClaimFirst (init lab3Config surface1x1 false)).monitor
      = MonitorPc.sampling ∧
    (run lab3Config scheduleSampleBeforeJoin
      (run lab3Config scheduleClaimFirst (init lab3Config surface1x1 false))).monitor
      = MonitorPc.exited ∧
    ((∃ n, 0 < n ∧
      (run lab3Config scheduleSampleBeforeJoin
        (run lab3Config scheduleClaimFirst (init lab3Config surface1x1 false))).rendered =
      (run lab3Config scheduleClaimFirst (init lab3Config surface1x1 false)).rendered
        ++ List.replicate n 0) ∧
    (∃ left ∈ (run lab3Config scheduleSampleBeforeJoin
        (run lab3Config scheduleClaimFirst (init lab3Config surface1x1 false))).rendered,
      percent left surface1x1.h = 100)) :=
  ⟨by decide, by decide, by decide, by decide, by decide,
    (sample_on_empty_queue_renders_100 lab3Config surface1x1 false (by decide)).1
      scheduleClaimFirst scheduleSampleBeforeJoin (by decide) (by decide) (by decide)⟩


end OsLabs
